import Mathlib

/-!
Verification of the core logic of the MLB_HRandK dashboard (`src/app.py`).

The file embeds, as executable Lean definitions, the four pure components of
the program:

* the news validity check `is_valid_news` and the dedupe-and-bound loop that
  builds the sidebar news list (app.py lines 33-40 and 491-500);
* the fail-soft player-name resolution `pid2name` (app.py lines 129-136);
* the statcast event-log pipeline `fetch_hr_log` / `fetch_k_log`
  (app.py lines 106-170), including a faithful model of the sort performed by
  `pandas.DataFrame.sort_values` with its default `kind='quicksort'`
  (numpy introspective argsort);
* the news published-date formatting (app.py lines 503-510), including models
  of `pd.to_datetime` on the timestamp shapes in play, `tz_localize('UTC')`
  (which raises on an already timezone-aware timestamp) and
  `tz_convert('America/New_York')` with the post-2007 US DST rule.

Theorems about these definitions settle the claims of the specification.
-/

namespace MLBTracker

/-! ## Python string primitives

Python strings are modelled as Lean `String`.  The program only ever lowercases
and searches ASCII keyword constants, so `Char.toLower` (which lowercases the
ASCII range) matches Python `str.lower` on every character the checks can
distinguish. -/

/-- Model of Python `str.lower` (ASCII case folding, applied per character). -/
def pyLower (s : String) : String := String.mk (s.toList.map Char.toLower)

/-- True for the ASCII characters Python `str.strip()` removes
(space, tab, newline, carriage return, vertical tab, form feed). -/
def pyIsSpace (c : Char) : Bool :=
  c = ' ' || c = '\t' || c = '\n' || c = '\r' || c = '\x0b' || c = '\x0c'

/-- Model of Python `len(s.strip()) == 0`: every character is whitespace. -/
def pyBlank (s : String) : Bool := s.toList.all pyIsSpace

/-- Does the character list `needle` occur contiguously inside `hay`?
Model of Python's `needle in hay` on strings (for non-empty `needle`). -/
def listSub (needle : List Char) : List Char → Bool
  | [] => needle.isEmpty
  | c :: rest => needle.isPrefixOf (c :: rest) || listSub needle rest

/-- Model of Python `needle in hay` (substring containment). -/
def pyIn (needle hay : String) : Bool := listSub needle.toList hay.toList

/-! ## News validity check (app.py lines 33-40) -/

/-- A parsed RSS article as built by `fetch_mlb_news_rss` (app.py lines 24-30). -/
structure NewsArticle where
  title : String
  link : String
  summary : String
  published : String
  deriving DecidableEq, Repr

/-- The fixed blocklist `teaser_keywords` (app.py line 34). -/
def teaser_keywords : List String :=
  ["vote", "voting", "check back", "countdown", "announcement"]

/-- Translation of `is_valid_news` (app.py lines 33-40): reject when the
lower-cased `title + " " + summary` contains a blocklist keyword, or when both
title and summary strip to the empty string; otherwise accept. -/
def is_valid_news (article : NewsArticle) : Bool :=
  let content := pyLower (article.title ++ " " ++ article.summary)
  if teaser_keywords.any (fun kw => pyIn kw content) then false
  else if pyBlank article.summary && pyBlank article.title then false
  else true

/-! ## News dedupe-and-bound loop (app.py lines 491-500)

The source iterates over the fetched articles, skips invalid ones, appends an
article whose link was not seen before, and breaks out of the loop as soon as
three articles have been collected.  The recursion below carries the `seen`
set (as the list of collected links) and the accumulator `filtered`. -/

/-- The literal bound `3` of `len(filtered) >= 3` (app.py line 499). -/
def news_limit : Nat := 3

/-- One-to-one translation of the loop at app.py lines 493-500. -/
def newsLoopAux : List NewsArticle → List String → List NewsArticle → List NewsArticle
  | [], _, filtered => filtered
  | a :: rest, seen, filtered =>
    if is_valid_news a = false then newsLoopAux rest seen filtered
    else
      let step := if seen.contains a.link then (filtered, seen)
                  else (filtered ++ [a], seen ++ [a.link])
      if news_limit ≤ step.1.length then step.1
      else newsLoopAux rest step.2 step.1

/-- The filtered news list shown in the sidebar: the loop started from empty
`filtered` and empty `seen` (app.py lines 491-500). -/
def filter_news (articles : List NewsArticle) : List NewsArticle :=
  newsLoopAux articles [] []

/-! ## Fail-soft name resolution (app.py lines 129-136)

`pid2name` calls the external directory `playerid_reverse_lookup`; any failure
(unknown id, network error, malformed frame) raises and is converted to
`str(p)` by the `except` clause.  The external directory is modelled as a
function returning `none` exactly on the failing lookups. -/

/-- Translation of the inner `pid2name` (app.py lines 129-134), parameterised
by the external directory: success gives `first + " " + last`, any failure
gives `str(p)`. -/
def pid2name (lookup : Int → Option (String × String)) (p : Int) : String :=
  match lookup p with
  | some (first, last) => first ++ " " ++ last
  | none => toString p

/-- Translation of the `apply` lambda (app.py lines 135-136): a missing
counterparty id (`pd.notna` false) yields the empty string, a present id is
resolved through `pid2name`. -/
def counterpartyName (lookup : Int → Option (String × String)) :
    Option Int → String
  | none => ""
  | some p => pid2name lookup p

/-! ## Published-date formatting (app.py lines 503-510)

The source runs, inside a `try`:

    pub_dt_utc = pd.to_datetime(pub).tz_localize('UTC')
    pub_dt_edt = pub_dt_utc.tz_convert('America/New_York')
    pub_fmt = pub_dt_edt.strftime("%Y-%m-%d %H:%M EDT")

and on any exception falls back to `pub_fmt = pub[:16]`.

`pd.to_datetime` is modelled on the two timestamp shapes that occur in this
program: RSS-style `"Www, DD Mon YYYY HH:MM:SS ZZZ"` lines (the code comment
at app.py line 504 documents `"Tue, 02 Jul 2024 00:13:30 GMT"` as the expected
shape) and ISO `"YYYY-MM-DD[ HH:MM[:SS]]"` strings; every other input makes
`pd.to_datetime` raise, which the model renders as `none`.  A parsed timestamp
whose text carried an explicit zone (GMT/UTC/UT/Z) is timezone-aware;
`Timestamp.tz_localize('UTC')` raises `TypeError` on an already-aware
timestamp, which the model again renders as `none`. -/

/-- A parsed timestamp: civil fields plus, when the text carried explicit zone
information, the zone's offset from UTC in minutes (`none` = naive). -/
structure PdTimestamp where
  year : Int
  month : Nat
  day : Nat
  hour : Nat
  minute : Nat
  second : Nat
  tzOffset : Option Int
  deriving DecidableEq, Repr

/-- Split a character list at a separator (model of Python `str.split(sep)`). -/
def splitChars (sep : Char) : List Char → List (List Char)
  | [] => [[]]
  | c :: rest =>
    let r := splitChars sep rest
    if c = sep then [] :: r
    else
      match r with
      | [] => [[c]]
      | t :: ts => (c :: t) :: ts

/-- Read a non-empty all-digit character list as a number. -/
def digitsToNat? (cs : List Char) : Option Nat :=
  if cs.isEmpty then none
  else if cs.all Char.isDigit then
    some (cs.foldl (fun acc c => acc * 10 + (c.toNat - 48)) 0)
  else none

/-- Proleptic-Gregorian leap-year test. -/
def isLeap (y : Int) : Bool := (y % 4 = 0 && y % 100 ≠ 0) || y % 400 = 0

/-- Days in a month of the Gregorian calendar. -/
def daysInMonth (y : Int) (m : Nat) : Nat :=
  if m = 2 then (if isLeap y then 29 else 28)
  else if m = 4 || m = 6 || m = 9 || m = 11 then 30
  else 31

/-- Days since 1970-01-01 of a civil date (Hinnant's `days_from_civil`,
the algorithm used by every civil-time library including the one backing
`pandas`/`pytz` semantics modelled here). -/
def daysFromCivil (y : Int) (m d : Nat) : Int :=
  let yAdj : Int := if m ≤ 2 then y - 1 else y
  let era : Int := (if 0 ≤ yAdj then yAdj else yAdj - 399) / 400
  let yoe : Int := yAdj - era * 400
  let mp : Int := if 2 < m then (m : Int) - 3 else (m : Int) + 9
  let doy : Int := (153 * mp + 2) / 5 + (d : Int) - 1
  let doe : Int := yoe * 365 + yoe / 4 - yoe / 100 + doy
  era * 146097 + doe - 719468

/-- Civil date from days since 1970-01-01 (Hinnant's `civil_from_days`). -/
def civilFromDays (z0 : Int) : Int × Int × Int :=
  let z : Int := z0 + 719468
  let era : Int := (if 0 ≤ z then z else z - 146096) / 146097
  let doe : Int := z - era * 146097
  let yoe : Int := (doe - doe / 1460 + doe / 36524 - doe / 146096) / 365
  let y : Int := yoe + era * 400
  let doy : Int := doe - (365 * yoe + yoe / 4 - yoe / 100)
  let mp : Int := (5 * doy + 2) / 153
  let d : Int := doy - (153 * mp + 2) / 5 + 1
  let m : Int := if mp < 10 then mp + 3 else mp - 9
  (if m ≤ 2 then y + 1 else y, m, d)

/-- Day of week of a day count (0 = Sunday; day 0 = 1970-01-01, a Thursday). -/
def weekdayOfDays (z : Int) : Int := (z + 4) % 7

/-- Day of month of the second Sunday of March (US DST start). -/
def secondSundayMarch (y : Int) : Nat :=
  let w := weekdayOfDays (daysFromCivil y 3 1)
  (1 + ((7 - w) % 7) + 7).toNat

/-- Day of month of the first Sunday of November (US DST end). -/
def firstSundayNov (y : Int) : Nat :=
  let w := weekdayOfDays (daysFromCivil y 11 1)
  (1 + ((7 - w) % 7)).toNat

/-- Is a UTC instant (in minutes since the epoch) inside US Eastern DST?
Post-2007 rule: from 2:00 EST (7:00 UTC) on the second Sunday of March until
2:00 EDT (6:00 UTC) on the first Sunday of November. -/
def isEasternDST (utcMin : Int) : Bool :=
  let y := (civilFromDays (utcMin.fdiv 1440)).1
  let dstStart := daysFromCivil y 3 (secondSundayMarch y) * 1440 + 7 * 60
  let dstEnd := daysFromCivil y 11 (firstSundayNov y) * 1440 + 6 * 60
  dstStart ≤ utcMin && utcMin < dstEnd

/-- Minutes since the epoch of a naive timestamp read as UTC (seconds are
dropped, exactly as the `%H:%M` rendering below does). -/
def utcMinutesOf (t : PdTimestamp) : Int :=
  daysFromCivil t.year t.month t.day * 1440 + (t.hour : Int) * 60 + (t.minute : Int)

/-- Model of `Timestamp.tz_convert('America/New_York')`: shift a UTC instant
to US Eastern local minutes (-240 in DST, -300 in standard time). -/
def tz_convert_eastern (utcMin : Int) : Int :=
  utcMin - (if isEasternDST utcMin then 240 else 300)

/-- Zero-padded two-digit rendering of a field (`%m`, `%d`, `%H`, `%M`). -/
def pad2 (n : Int) : String := if n < 10 then "0" ++ toString n else toString n

/-- The `%Y-%m-%d %H:%M` part of the rendering of local minutes. -/
def strftimeYMDHM (localMin : Int) : String :=
  let days := localMin.fdiv 1440
  let rem := localMin.emod 1440
  let c := civilFromDays days
  toString c.1 ++ "-" ++ pad2 c.2.1 ++ "-" ++ pad2 c.2.2 ++ " " ++
    pad2 (rem / 60) ++ ":" ++ pad2 (rem % 60)

/-- Model of `strftime("%Y-%m-%d %H:%M EDT")` on local minutes: note the zone
suffix is the fixed literal `"EDT"` from the format string, not derived from
the timestamp. -/
def strftimeEDT (localMin : Int) : String :=
  strftimeYMDHM localMin ++ " EDT"

/-- Month-name tokens of the RSS timestamp shape. -/
def monthToken? (cs : List Char) : Option Nat :=
  let names := ["Jan", "Feb", "Mar", "Apr", "May", "Jun",
                "Jul", "Aug", "Sep", "Oct", "Nov", "Dec"]
  (names.findIdx? (fun n => n.toList = cs)).map (· + 1)

/-- Weekday tokens of the RSS timestamp shape (with the trailing comma). -/
def weekdayToken (cs : List Char) : Bool :=
  ["Mon,", "Tue,", "Wed,", "Thu,", "Fri,", "Sat,", "Sun,"].any
    (fun n => n.toList = cs)

/-- Explicit-zone tokens recognised by the parse (offset in minutes). -/
def zoneToken? (cs : List Char) : Option Int :=
  if cs = "GMT".toList || cs = "UTC".toList || cs = "UT".toList
     || cs = "Z".toList then some 0
  else none

/-- Parse an `HH:MM[:SS]` token. -/
def parseHMS? (cs : List Char) : Option (Nat × Nat × Nat) :=
  match splitChars ':' cs with
  | [h, m] => do
    let hv ← digitsToNat? h
    let mv ← digitsToNat? m
    if hv < 24 && mv < 60 then some (hv, mv, 0) else none
  | [h, m, s] => do
    let hv ← digitsToNat? h
    let mv ← digitsToNat? m
    let sv ← digitsToNat? s
    if hv < 24 && mv < 60 && sv < 60 then some (hv, mv, sv) else none
  | _ => none

/-- Parse a `YYYY-MM-DD` token. -/
def parseYMD? (cs : List Char) : Option (Nat × Nat × Nat) :=
  match splitChars '-' cs with
  | [y, m, d] => do
    let yv ← digitsToNat? y
    let mv ← digitsToNat? m
    let dv ← digitsToNat? d
    if 1 ≤ mv && mv ≤ 12 && 1 ≤ dv && dv ≤ daysInMonth (yv : Int) mv
    then some (yv, mv, dv) else none
  | _ => none

/-- Model of `pd.to_datetime` on the timestamp shapes this program meets:
the RSS shape `"Www, DD Mon YYYY HH:MM:SS [zone]"` and the ISO shape
`"YYYY-MM-DD[ HH:MM[:SS]]"`.  `none` models the parse raising. -/
def pd_to_datetime (raw : String) : Option PdTimestamp :=
  match splitChars ' ' raw.toList with
  | [wd, dd, mon, yyyy, hms] => do
    if weekdayToken wd then
      let dv ← digitsToNat? dd
      let mv ← monthToken? mon
      let yv ← digitsToNat? yyyy
      let t ← parseHMS? hms
      if 1 ≤ dv && dv ≤ daysInMonth (yv : Int) mv then
        some ⟨yv, mv, dv, t.1, t.2.1, t.2.2, none⟩
      else none
    else none
  | [wd, dd, mon, yyyy, hms, zone] => do
    if weekdayToken wd then
      let dv ← digitsToNat? dd
      let mv ← monthToken? mon
      let yv ← digitsToNat? yyyy
      let t ← parseHMS? hms
      let off ← zoneToken? zone
      if 1 ≤ dv && dv ≤ daysInMonth (yv : Int) mv then
        some ⟨yv, mv, dv, t.1, t.2.1, t.2.2, some off⟩
      else none
    else none
  | [ymd] => do
    let c ← parseYMD? ymd
    some ⟨c.1, c.2.1, c.2.2, 0, 0, 0, none⟩
  | [ymd, hms] => do
    let c ← parseYMD? ymd
    let t ← parseHMS? hms
    some ⟨c.1, c.2.1, c.2.2, t.1, t.2.1, t.2.2, none⟩
  | _ => none

/-- Model of `Timestamp.tz_localize('UTC')`: succeeds (giving the UTC instant
in minutes) only on a naive timestamp; raises (`none`) on an already
timezone-aware one. -/
def tz_localize_utc (t : PdTimestamp) : Option Int :=
  match t.tzOffset with
  | some _ => none
  | none => some (utcMinutesOf t)

/-- The whole `try` body at app.py lines 506-508: parse, localize to UTC,
convert to US Eastern, render.  `none` models any exception. -/
def pubTry (pub : String) : Option String := do
  let ts ← pd_to_datetime pub
  let utc ← tz_localize_utc ts
  some (strftimeEDT (tz_convert_eastern utc))

/-- Translation of the published-date formatting (app.py lines 503-510):
the `try` body on success, `pub[:16]` on any exception. -/
def format_published (pub : String) : String :=
  match pubTry pub with
  | some s => s
  | none => pub.take 16

/-! ## Statcast event rows (app.py lines 106-170)

One row per pitch/plate-appearance outcome, with the columns the pipeline
reads.  `game_date` is the calendar date, encoded as the number `yyyymmdd`
(this encoding is strictly monotone in the date, so every comparison and
equality test of `pd.Timestamp` dates is preserved). -/

/-- A statcast event row with the columns used by `fetch_hr_log` /
`fetch_k_log`: date, outcome label, teams and the two participant ids
(either may be missing). -/
structure GameEvent where
  game_date : Nat
  events : String
  home_team : String
  away_team : String
  pitcher : Option Int
  batter : Option Int
  deriving DecidableEq, Repr

instance : Inhabited GameEvent := ⟨⟨0, "", "", "", none, none⟩⟩

/-- `TOKYO_START = datetime(2025, 3, 18)` (app.py line 11). -/
def TOKYO_START : Nat := 20250318

/-- `TOKYO_2 = datetime(2025, 3, 19)` (app.py line 12). -/
def TOKYO_2 : Nat := 20250319

/-- `REGULAR_START = datetime(2025, 3, 27)` (app.py line 13). -/
def REGULAR_START : Nat := 20250327

/-! ## The sort of `sort_values('Date')`

`DataFrame.sort_values` with its default `kind='quicksort'` computes
`numpy.argsort(keys, kind='quicksort')`, numpy's introspective sort of the
index array `[0, ..., n-1]` compared through the key values: median-of-three
quicksort partitioning down to partitions of at most 16 elements, insertion
sort on the small partitions, and heapsort once the recursion depth exceeds
`2*floor(log2 n)`.  The definitions below model that algorithm exactly
(numpy `npysort`: `aquicksort` with `SMALL_QUICKSORT = 15` and `aheapsort`);
they act on the list `ts` of indices, comparing indices through `keys`. -/

/-- Key comparison of two indices (`LT(v[i], v[j])` in numpy). -/
def keyLt (keys : List Nat) (i j : Nat) : Bool :=
  keys.getD i 0 < keys.getD j 0

/-- Exchange the entries at two positions (`INTP_SWAP`).  The C code only
ever swaps positions inside the current segment; an out-of-range position is
totalised as a no-op. -/
def lswap (ts : List Nat) (i j : Nat) : List Nat :=
  if i < ts.length && j < ts.length then
    (ts.set i (ts.getD j 0)).set j (ts.getD i 0)
  else ts

/-- Landing position of the insertion-sort inner scan: starting from
candidate position `pi`, move left while the left neighbour's key is
strictly greater than `vp` and the left wall `pl` is not passed. -/
def insPos (keys ts : List Nat) (pl vp : Nat) : Nat → Nat
  | 0 => 0
  | pj + 1 =>
    if pl ≤ pj && vp < keys.getD (ts.getD pj 0) 0 then insPos keys ts pl vp pj
    else pj + 1

/-- Take the entry at position `src` out and re-insert it at position
`dst ≤ src` (the net effect of the insertion-sort shift loop).  The C loop
only ever touches positions inside the segment; an out-of-range `src` is
totalised as a no-op. -/
def moveElem (ts : List Nat) (src dst : Nat) : List Nat :=
  if src < ts.length then (ts.eraseIdx src).insertIdx dst (ts.getD src 0)
  else ts

/-- One step of the insertion sort: place the entry at position `pi` at its
landing position within `[pl, pi]`. -/
def insStep (keys ts : List Nat) (pl pi : Nat) : List Nat :=
  let vi := ts.getD pi 0
  moveElem ts pi (insPos keys ts pl (keys.getD vi 0) pi)

/-- Insertion sort of the segment `[pl, pr]` (numpy's small-partition path:
`for pi = pl+1 .. pr`). -/
def insertionRange (keys ts : List Nat) (pl pr : Nat) : List Nat :=
  (List.range' (pl + 1) (pr - pl)).foldl (fun acc pi => insStep keys acc pl pi) ts

/-- Heapsort sift-down over the segment starting at `pl` with heap size `n`,
from 1-based heap index `i` (swap-based rendering of numpy's `aheapsort`
inner loop; the hole-shifting optimisation of the C source performs the same
exchanges). -/
def siftDown (keys : List Nat) (pl n : Nat) : Nat → Nat → List Nat → List Nat
  | 0, _, ts => ts
  | fuel + 1, i, ts =>
    let l := 2 * i
    if n < l then ts
    else
      let j := if l < n && keyLt keys (ts.getD (pl + l - 1) 0) (ts.getD (pl + l) 0)
               then l + 1 else l
      if keyLt keys (ts.getD (pl + i - 1) 0) (ts.getD (pl + j - 1) 0) then
        siftDown keys pl n fuel j (lswap ts (pl + i - 1) (pl + j - 1))
      else ts

/-- Heapsort of the segment `[pl, pr]` (numpy's depth-exhaustion fallback):
heapify, then repeatedly swap the root with the last heap entry and sift. -/
def heapsortRange (keys ts : List Nat) (pl pr : Nat) : List Nat :=
  let n := pr + 1 - pl
  let heaped := ((List.range' 1 (n / 2)).reverse).foldl
    (fun acc l => siftDown keys pl n (n + 1) l acc) ts
  ((List.range' 2 (n - 1)).reverse).foldl
    (fun acc m => siftDown keys pl (m - 1) (n + 1) 1 (lswap acc pl (pl + m - 1)))
    heaped

/-- Partition scan upward: `do ++pi; while (LT(v[*pi], vp))`. -/
def scanUp (keys ts : List Nat) (vp : Nat) : Nat → Nat → Nat
  | 0, pi => pi + 1
  | fuel + 1, pi =>
    if keys.getD (ts.getD (pi + 1) 0) 0 < vp then scanUp keys ts vp fuel (pi + 1)
    else pi + 1

/-- Partition scan downward: `do --pj; while (LT(vp, v[*pj]))`. -/
def scanDown (keys ts : List Nat) (vp : Nat) : Nat → Nat → Nat
  | 0, pj => pj - 1
  | fuel + 1, pj =>
    if vp < keys.getD (ts.getD (pj - 1) 0) 0 then scanDown keys ts vp fuel (pj - 1)
    else pj - 1

/-- The partition exchange loop: scan from both ends, swap, stop when the
scans cross; returns the updated index list and the crossing position. -/
def partLoop (keys : List Nat) (vp : Nat) : Nat → List Nat → Nat → Nat →
    List Nat × Nat
  | 0, ts, pi, _ => (ts, pi)
  | fuel + 1, ts, pi, pj =>
    let pi' := scanUp keys ts vp (fuel + 1) pi
    let pj' := scanDown keys ts vp (fuel + 1) pj
    if pj' ≤ pi' then (ts, pi')
    else partLoop keys vp fuel (lswap ts pi' pj') pi' pj'

/-- One quicksort partition of the segment `[pl, pr]`: median-of-three pivot
selection, pivot parked at `pr - 1`, exchange loop, pivot restored at the
crossing position.  Returns the new index list and the pivot position. -/
def partitionSeg (keys ts0 : List Nat) (pl pr : Nat) : List Nat × Nat :=
  let pm := pl + (pr - pl) / 2
  let ts1 := if keyLt keys (ts0.getD pm 0) (ts0.getD pl 0) then lswap ts0 pm pl else ts0
  let ts2 := if keyLt keys (ts1.getD pr 0) (ts1.getD pm 0) then lswap ts1 pr pm else ts1
  let ts3 := if keyLt keys (ts2.getD pm 0) (ts2.getD pl 0) then lswap ts2 pm pl else ts2
  let vp := keys.getD (ts3.getD pm 0) 0
  let ts4 := lswap ts3 pm (pr - 1)
  let scanned := partLoop keys vp (pr + 1) ts4 pl (pr - 1)
  (lswap scanned.1 scanned.2 (pr - 1), scanned.2)

/-- The introsort driver: segments longer than 16 are partitioned while the
depth budget lasts (the larger half is pushed on the explicit stack),
exhausted segments are heapsorted, small segments are insertion sorted, and
the stack is then popped. -/
def qsLoop (keys : List Nat) : Nat → Nat → Nat → Int → List Nat →
    List (Nat × Nat) → List Nat
  | 0, _, _, _, ts, _ => ts
  | fuel + 1, pl, pr, depth, ts, stk =>
    if 15 < pr - pl then
      if depth < 0 then
        let ts' := heapsortRange keys ts pl pr
        match stk with
        | [] => ts'
        | (l, r) :: rest => qsLoop keys fuel l r depth ts' rest
      else
        let part := partitionSeg keys ts pl pr
        let pi := part.2
        if pi - pl < pr - pi then
          qsLoop keys fuel pl (pi - 1) (depth - 1) part.1 ((pi + 1, pr) :: stk)
        else
          qsLoop keys fuel (pi + 1) pr (depth - 1) part.1 ((pl, pi - 1) :: stk)
    else
      let ts' := insertionRange keys ts pl pr
      match stk with
      | [] => ts'
      | (l, r) :: rest => qsLoop keys fuel l r depth ts' rest

/-- Model of `numpy.argsort(keys, kind='quicksort')`: run the introsort
driver on the index list `[0, ..., n-1]` with depth budget
`2*floor(log2 n)`.  The fuel `4*n + 16` dominates the driver's iteration
count (at most `2*(depth budget + 1) + 1` iterations ever happen). -/
def npargsort (keys : List Nat) : List Nat :=
  let n := keys.length
  qsLoop keys (4 * n + 16) 0 (n - 1) (2 * (Nat.log2 n : Int)) (List.range n) []

/-- Model of `df.sort_values('Date')` on the retained rows: permute the rows
by the argsort of their date keys (`pandas.core.sorting.nargsort`). -/
def sort_values_by_date (rows : List GameEvent) : List GameEvent :=
  (npargsort (rows.map (fun e => e.game_date))).map (fun i => rows.getD i default)

/-! ## The event-log pipeline (app.py lines 106-137 and 139-170) -/

/-- The overseas-opener membership test `team_abbr in {'LAD', 'CHC'}`
(app.py lines 116 and 149). -/
def overseasTeam (team_abbr : String) : Bool :=
  team_abbr = "LAD" || team_abbr = "CHC"

/-- The eligibility mask (app.py lines 115-119): overseas-opener teams keep
the two Tokyo dates besides everything from the regular-season start;
all other teams keep only dates at or after the regular-season start. -/
def eligMask (team_abbr : String) (d : Nat) : Bool :=
  if overseasTeam team_abbr then
    (d = TOKYO_START || d = TOKYO_2) || REGULAR_START ≤ d
  else REGULAR_START ≤ d

/-- An output row of the pipeline: the event plus the derived columns
`'HR No'`/`'K No'`, `'MM-DD'` and `'Pitcher'`/`'Batter'`. -/
structure LogRow where
  ev : GameEvent
  seqNo : Nat
  mmdd : String
  counterparty : String
  deriving DecidableEq, Repr

/-- The `'MM-DD'` column: `Date.dt.strftime('%m-%d')` on the encoded date. -/
def mmddOf (d : Nat) : String :=
  pad2 ((d / 100 % 100 : Nat) : Int) ++ "-" ++ pad2 ((d % 100 : Nat) : Int)

/-- The shared body of `fetch_hr_log` and `fetch_k_log`: restrict the raw
table to the requested date range (the `statcast_batter`/`statcast_pitcher`
providers return exactly the events with `start_dt ≤ game_date ≤ end_dt`),
short-circuit on an empty frame, apply the eligibility mask, keep the target
event type, sort by date, and annotate with the 1-based sequence number, the
`'MM-DD'` string and the resolved counterparty name. -/
def logPipeline (etype : String) (cp : GameEvent → Option Int)
    (lookup : Int → Option (String × String))
    (table : List GameEvent) (start end_ : Nat) (team_abbr : String) :
    List LogRow :=
  let df := table.filter (fun e => start ≤ e.game_date && e.game_date ≤ end_)
  if df.isEmpty then []
  else
    let masked := df.filter (fun e => eligMask team_abbr e.game_date)
    let typed := masked.filter (fun e => e.events = etype)
    let sorted := sort_values_by_date typed
    sorted.enum.map (fun p =>
      { ev := p.2, seqNo := p.1 + 1, mmdd := mmddOf p.2.game_date,
        counterparty := counterpartyName lookup (cp p.2) })

/-- The events a query retains before sorting: date range, eligibility mask
and event type (the `n` of the sequence-numbering claim). -/
def retainedEvents (etype : String) (table : List GameEvent)
    (start end_ : Nat) (team_abbr : String) : List GameEvent :=
  ((table.filter (fun e => start ≤ e.game_date && e.game_date ≤ end_)).filter
    (fun e => eligMask team_abbr e.game_date)).filter (fun e => e.events = etype)

/-- Translation of `fetch_hr_log` (app.py lines 106-137): the pipeline with
event type `'home_run'` and the pitcher as counterparty. -/
def fetch_hr_log (lookup : Int → Option (String × String))
    (table : List GameEvent) (start end_ : Nat) (team_abbr : String) :
    List LogRow :=
  logPipeline "home_run" (fun e => e.pitcher) lookup table start end_ team_abbr

/-- Translation of `fetch_k_log` (app.py lines 139-170): the pipeline with
event type `'strikeout'` and the batter as counterparty. -/
def fetch_k_log (lookup : Int → Option (String × String))
    (table : List GameEvent) (start end_ : Nat) (team_abbr : String) :
    List LogRow :=
  logPipeline "strikeout" (fun e => e.batter) lookup table start end_ team_abbr

/-! ## Permutation facts about the argsort model

`npargsort` only rearranges the index list it is given: every operation of
the introsort driver is an exchange or a remove-and-reinsert.  These lemmas
establish that its result is a permutation of `[0, ..., n-1]`, which is what
the membership and counting claims about the pipeline rest on. -/

theorem count_set_add (l : List Nat) (i : Nat) (h : i < l.length) (b a : Nat) :
    (l.set i b).count a + (if l[i] = a then 1 else 0)
      = l.count a + (if b = a then 1 else 0) := by
  induction l generalizing i with
  | nil => simp at h
  | cons x t ih =>
    cases i with
    | zero =>
      simp only [List.set_cons_zero, List.count_cons, beq_iff_eq,
        List.getElem_cons_zero]
      split_ifs <;> omega
    | succ n =>
      have hn : n < t.length := by simpa using h
      have ihn := ih n hn
      simp only [List.set_cons_succ, List.count_cons, beq_iff_eq,
        List.getElem_cons_succ] at ihn ⊢
      split_ifs at ihn ⊢ <;> omega

theorem lswap_perm (ts : List Nat) (i j : Nat) : List.Perm (lswap ts i j) ts := by
  unfold lswap
  split
  case isFalse => exact List.Perm.refl ts
  case isTrue hb =>
    have hi : i < ts.length := by
      rcases Bool.and_eq_true_iff.mp hb with ⟨h1, _⟩
      exact of_decide_eq_true h1
    have hj : j < ts.length := by
      rcases Bool.and_eq_true_iff.mp hb with ⟨_, h2⟩
      exact of_decide_eq_true h2
    refine List.perm_iff_count.mpr fun a => ?_
    have hlenA : (ts.set i (ts.getD j 0)).length = ts.length := by simp
    have hjA : j < (ts.set i (ts.getD j 0)).length := by omega
    have h1 := count_set_add ts i hi (ts.getD j 0) a
    have h2 := count_set_add (ts.set i (ts.getD j 0)) j hjA (ts.getD i 0) a
    have hgdi : ts.getD i 0 = ts[i] := List.getD_eq_getElem ts 0 hi
    have hgdj : ts.getD j 0 = ts[j] := List.getD_eq_getElem ts 0 hj
    by_cases hij : i = j
    · subst hij
      rw [hgdi] at h1
      rw [hgdi, List.set_set]
      split_ifs at h1 <;> omega
    · have e1 : (ts.set i (ts.getD j 0))[j] = ts[j] := by
        rw [List.getElem_set_ne hij]
      rw [e1, hgdi, hgdj] at h2
      rw [hgdj] at h1
      rw [hgdi, hgdj]
      split_ifs at h1 h2 <;> omega

theorem moveElem_perm (ts : List Nat) (src dst : Nat) (hd : dst ≤ src) :
    List.Perm (moveElem ts src dst) ts := by
  unfold moveElem
  split
  case isFalse => exact List.Perm.refl ts
  case isTrue hs =>
    have hlen : (ts.eraseIdx src).length = ts.length - 1 := by
      simp [List.length_eraseIdx, hs]
    have hdle : dst ≤ (ts.eraseIdx src).length := by omega
    refine ((List.perm_insertIdx _ _ hdle).trans ?_)
    have hgd : ts.getD src 0 = ts[src] := List.getD_eq_getElem ts 0 hs
    rw [hgd, List.eraseIdx_eq_take_drop_succ]
    have e : List.take src ts ++ ts[src] :: List.drop (src + 1) ts = ts := by
      rw [← List.drop_eq_getElem_cons hs, List.take_append_drop]
    conv_rhs => rw [← e]
    exact List.perm_middle.symm

theorem foldl_perm {β : Type} (f : List Nat → β → List Nat) (l : List β)
    (hf : ∀ acc x, List.Perm (f acc x) acc) :
    ∀ ts : List Nat, List.Perm (l.foldl f ts) ts := by
  induction l with
  | nil => intro ts; exact List.Perm.refl ts
  | cons x rest ih =>
    intro ts
    exact (ih (f ts x)).trans (hf ts x)

theorem insPos_le (keys ts : List Nat) (pl vp : Nat) :
    ∀ pj, insPos keys ts pl vp pj ≤ pj := by
  intro pj
  induction pj with
  | zero => simp [insPos]
  | succ n ih =>
    unfold insPos
    split
    · omega
    · omega

theorem insStep_perm (keys ts : List Nat) (pl pi : Nat) :
    List.Perm (insStep keys ts pl pi) ts :=
  moveElem_perm ts pi _ (insPos_le keys ts pl _ pi)

theorem insertionRange_perm (keys ts : List Nat) (pl pr : Nat) :
    List.Perm (insertionRange keys ts pl pr) ts :=
  foldl_perm _ _ (fun acc x => insStep_perm keys acc pl x) ts

theorem siftDown_perm (keys : List Nat) (pl n : Nat) :
    ∀ fuel i ts, List.Perm (siftDown keys pl n fuel i ts) ts := by
  intro fuel
  induction fuel with
  | zero => intro i ts; exact List.Perm.refl ts
  | succ f ih =>
    intro i ts
    simp only [siftDown]
    split
    · exact List.Perm.refl ts
    · split
      · split
        · exact (ih _ _).trans (lswap_perm ts _ _)
        · exact List.Perm.refl ts
      · split
        · exact (ih _ _).trans (lswap_perm ts _ _)
        · exact List.Perm.refl ts

theorem heapsortRange_perm (keys ts : List Nat) (pl pr : Nat) :
    List.Perm (heapsortRange keys ts pl pr) ts := by
  simp only [heapsortRange]
  refine (foldl_perm _ _ (fun acc m => ?_) _).trans
    (foldl_perm _ _ (fun acc l => siftDown_perm keys pl _ _ l acc) ts)
  exact (siftDown_perm keys pl _ _ 1 _).trans (lswap_perm acc _ _)

theorem partLoop_perm (keys : List Nat) (vp : Nat) :
    ∀ fuel ts pi pj, List.Perm (partLoop keys vp fuel ts pi pj).1 ts := by
  intro fuel
  induction fuel with
  | zero => intro ts pi pj; exact List.Perm.refl ts
  | succ f ih =>
    intro ts pi pj
    simp only [partLoop]
    split
    · exact List.Perm.refl ts
    · exact (ih _ _ _).trans (lswap_perm ts _ _)

theorem ifswap_perm (base : List Nat) (c : Bool) (t : List Nat) (a b : Nat)
    (h : List.Perm t base) :
    List.Perm (if c = true then lswap t a b else t) base := by
  split
  · exact (lswap_perm t a b).trans h
  · exact h

theorem partitionSeg_perm (keys ts : List Nat) (pl pr : Nat) :
    List.Perm (partitionSeg keys ts pl pr).1 ts := by
  simp only [partitionSeg]
  exact (lswap_perm _ _ _).trans ((partLoop_perm keys _ _ _ _ _).trans
    ((lswap_perm _ _ _).trans (ifswap_perm ts _ _ _ _ (ifswap_perm ts _ _ _ _
      (ifswap_perm ts _ _ _ _ (List.Perm.refl ts))))))

theorem qsLoop_perm (keys : List Nat) :
    ∀ fuel pl pr depth ts stk,
    List.Perm (qsLoop keys fuel pl pr depth ts stk) ts := by
  intro fuel
  induction fuel with
  | zero => intro pl pr depth ts stk; exact List.Perm.refl ts
  | succ f ih =>
    intro pl pr depth ts stk
    simp only [qsLoop]
    split
    · split
      · cases stk with
        | nil => exact heapsortRange_perm keys ts pl pr
        | cons p rest =>
          exact (ih _ _ _ _ _).trans (heapsortRange_perm keys ts pl pr)
      · split
        · exact (ih _ _ _ _ _).trans (partitionSeg_perm keys ts pl pr)
        · exact (ih _ _ _ _ _).trans (partitionSeg_perm keys ts pl pr)
    · cases stk with
      | nil => exact insertionRange_perm keys ts pl pr
      | cons p rest =>
        exact (ih _ _ _ _ _).trans (insertionRange_perm keys ts pl pr)

theorem npargsort_perm (keys : List Nat) :
    List.Perm (npargsort keys) (List.range keys.length) :=
  qsLoop_perm keys _ _ _ _ _ _

theorem map_getD_range {α : Type} [Inhabited α] (l : List α) :
    (List.range l.length).map (fun i => l.getD i default) = l := by
  refine List.ext_getElem (by simp) fun n h1 h2 => ?_
  simp only [List.getElem_map, List.getElem_range]
  exact List.getD_eq_getElem l default h2

theorem sort_values_perm (rows : List GameEvent) :
    List.Perm (sort_values_by_date rows) rows := by
  unfold sort_values_by_date
  have h := (npargsort_perm (rows.map (fun e => e.game_date))).map
    (fun i => rows.getD i default)
  rw [List.length_map] at h
  rw [map_getD_range] at h
  exact h

/-! ## Structure of the pipeline output -/

theorem enum_map_fst_succ {α : Type} (l : List α) :
    l.enum.map (fun p => p.1 + 1) = List.range' 1 l.length := by
  have h1 : l.enum.map (fun p => p.1 + 1)
      = (l.enum.map Prod.fst).map (fun i => i + 1) := by
    rw [List.map_map]; rfl
  rw [h1, List.enum_map_fst, List.range'_eq_map_range]
  exact List.map_congr_left fun a _ => Nat.add_comm a 1

theorem retainedEvents_of_empty (etype : String) (table : List GameEvent)
    (start end_ : Nat) (team : String)
    (h : table.filter (fun e => start ≤ e.game_date && e.game_date ≤ end_) = []) :
    retainedEvents etype table start end_ team = [] := by
  unfold retainedEvents
  rw [h]
  rfl

theorem logPipeline_map_seqNo (etype : String) (cp : GameEvent → Option Int)
    (lookup : Int → Option (String × String)) (table : List GameEvent)
    (start end_ : Nat) (team : String) :
    (logPipeline etype cp lookup table start end_ team).map (fun r => r.seqNo)
      = List.range' 1 (retainedEvents etype table start end_ team).length := by
  simp only [logPipeline]
  split
  case isTrue h =>
    rw [retainedEvents_of_empty etype table start end_ team
      (List.isEmpty_iff.mp h)]
    rfl
  case isFalse h =>
    rw [List.map_map]
    have hc : ((fun r : LogRow => r.seqNo) ∘ (fun p : Nat × GameEvent =>
        ({ ev := p.2, seqNo := p.1 + 1, mmdd := mmddOf p.2.game_date,
           counterparty := counterpartyName lookup (cp p.2) } : LogRow)))
        = fun p : Nat × GameEvent => p.1 + 1 := rfl
    rw [hc, enum_map_fst_succ]
    have hlen := (sort_values_perm (((table.filter
      (fun e => start ≤ e.game_date && e.game_date ≤ end_)).filter
      (fun e => eligMask team e.game_date)).filter
      (fun e => e.events = etype))).length_eq
    rw [hlen]
    rfl

theorem logPipeline_ev_mem_retained (etype : String) (cp : GameEvent → Option Int)
    (lookup : Int → Option (String × String)) (table : List GameEvent)
    (start end_ : Nat) (team : String) (row : LogRow)
    (h : row ∈ logPipeline etype cp lookup table start end_ team) :
    row.ev ∈ retainedEvents etype table start end_ team := by
  simp only [logPipeline] at h
  split at h
  case isTrue => simp at h
  case isFalse hne =>
    rcases List.mem_map.mp h with ⟨p, hp, hrow⟩
    have hev : row.ev = p.2 := by rw [← hrow]
    have hsnd : p.2 ∈ sort_values_by_date (((table.filter
        (fun e => start ≤ e.game_date && e.game_date ≤ end_)).filter
        (fun e => eligMask team e.game_date)).filter
        (fun e => e.events = etype)) := by
      have : p.2 ∈ (sort_values_by_date _).enum.map Prod.snd :=
        List.mem_map.mpr ⟨p, hp, rfl⟩
      rwa [List.enum_map_snd] at this
    rw [hev]
    exact ((sort_values_perm _).mem_iff).mp hsnd

theorem logPipeline_retained_mem (etype : String) (cp : GameEvent → Option Int)
    (lookup : Int → Option (String × String)) (table : List GameEvent)
    (start end_ : Nat) (team : String) (ev : GameEvent)
    (h : ev ∈ retainedEvents etype table start end_ team) :
    ∃ row ∈ logPipeline etype cp lookup table start end_ team, row.ev = ev := by
  have hdf : ev ∈ table.filter (fun e => start ≤ e.game_date && e.game_date ≤ end_) := by
    unfold retainedEvents at h
    exact (List.mem_filter.mp ((List.mem_filter.mp h).1)).1
  simp only [logPipeline]
  split
  case isTrue hem =>
    rw [List.isEmpty_iff.mp hem] at hdf
    simp at hdf
  case isFalse hne =>
    have hsort : ev ∈ sort_values_by_date (((table.filter
        (fun e => start ≤ e.game_date && e.game_date ≤ end_)).filter
        (fun e => eligMask team e.game_date)).filter
        (fun e => e.events = etype)) :=
      ((sort_values_perm _).mem_iff).mpr h
    rw [← List.enum_map_snd (sort_values_by_date _)] at hsort
    rcases List.mem_map.mp hsort with ⟨p, hp, hpe⟩
    exact ⟨_, List.mem_map.mpr ⟨p, hp, rfl⟩, hpe⟩

theorem mem_retainedEvents (etype : String) (table : List GameEvent)
    (start end_ : Nat) (team : String) (ev : GameEvent) :
    ev ∈ retainedEvents etype table start end_ team ↔
      ev ∈ table ∧ start ≤ ev.game_date ∧ ev.game_date ≤ end_ ∧
        eligMask team ev.game_date = true ∧ ev.events = etype := by
  unfold retainedEvents
  simp only [List.mem_filter, Bool.and_eq_true, decide_eq_true_eq]
  tauto

/-- C1.  Eligibility window correctness of the event-log filter: for a
subject team that is not an overseas-opener team (`LAD`, `CHC`), every row
of the filtered log is dated at or after the regular-season start, whatever
`[start, end]` the caller asked for; for an overseas-opener team, an event
of the target type dated on either Tokyo date and lying inside
`[start, end]` always appears in the filtered log.  Both directions are
stated for `fetch_hr_log` and for `fetch_k_log`. -/
theorem c1_eligibility_window (lookup : Int → Option (String × String))
    (table : List GameEvent) (start end_ : Nat) (team : String) :
    (overseasTeam team = false →
      ∀ row ∈ fetch_hr_log lookup table start end_ team,
        REGULAR_START ≤ row.ev.game_date) ∧
    (overseasTeam team = false →
      ∀ row ∈ fetch_k_log lookup table start end_ team,
        REGULAR_START ≤ row.ev.game_date) ∧
    (overseasTeam team = true →
      ∀ ev ∈ table, (ev.game_date = TOKYO_START ∨ ev.game_date = TOKYO_2) →
        start ≤ ev.game_date → ev.game_date ≤ end_ →
        ev.events = "home_run" →
        ∃ row ∈ fetch_hr_log lookup table start end_ team, row.ev = ev) ∧
    (overseasTeam team = true →
      ∀ ev ∈ table, (ev.game_date = TOKYO_START ∨ ev.game_date = TOKYO_2) →
        start ≤ ev.game_date → ev.game_date ≤ end_ →
        ev.events = "strikeout" →
        ∃ row ∈ fetch_k_log lookup table start end_ team, row.ev = ev) := by
  have hmask : ∀ d, overseasTeam team = false → eligMask team d = true →
      REGULAR_START ≤ d := by
    intro d hov hm
    unfold eligMask at hm
    rw [hov] at hm
    simpa using hm
  have hmaskT : ∀ d, overseasTeam team = true →
      (d = TOKYO_START ∨ d = TOKYO_2) → eligMask team d = true := by
    intro d hov hd
    unfold eligMask
    rw [hov]
    simp only [if_true]
    rcases hd with h | h <;> simp [h]
  refine ⟨?_, ?_, ?_, ?_⟩
  · intro hov row hrow
    exact hmask _ hov ((mem_retainedEvents _ _ _ _ _ _).mp
      (logPipeline_ev_mem_retained _ _ lookup table start end_ team row hrow)).2.2.2.1
  · intro hov row hrow
    exact hmask _ hov ((mem_retainedEvents _ _ _ _ _ _).mp
      (logPipeline_ev_mem_retained _ _ lookup table start end_ team row hrow)).2.2.2.1
  · intro hov ev hev hd hs he het
    exact logPipeline_retained_mem _ _ lookup table start end_ team ev
      ((mem_retainedEvents _ _ _ _ _ _).mpr
        ⟨hev, hs, he, hmaskT _ hov hd, het⟩)
  · intro hov ev hev hd hs he het
    exact logPipeline_retained_mem _ _ lookup table start end_ team ev
      ((mem_retainedEvents _ _ _ _ _ _).mpr
        ⟨hev, hs, he, hmaskT _ hov hd, het⟩)

/-- C2.  Sequence numbering invariant: the `'HR No'` column of
`fetch_hr_log` (resp. the `'K No'` column of `fetch_k_log`) reads exactly
`1, 2, ..., n` in order, where `n` is the number of retained events —
strictly increasing, gapless, with no reuse, assigned after filtering and
sorting. -/
theorem c2_sequence_numbering (lookup : Int → Option (String × String))
    (table : List GameEvent) (start end_ : Nat) (team : String) :
    (fetch_hr_log lookup table start end_ team).map (fun r => r.seqNo)
      = List.range' 1 (retainedEvents "home_run" table start end_ team).length ∧
    (fetch_k_log lookup table start end_ team).map (fun r => r.seqNo)
      = List.range' 1 (retainedEvents "strikeout" table start end_ team).length :=
  ⟨logPipeline_map_seqNo _ _ lookup table start end_ team,
   logPipeline_map_seqNo _ _ lookup table start end_ team⟩

/-! ## Stability of the small-partition insertion sort

A list whose whole extent is at most 16 entries never reaches the quicksort
partition (`pr - pl > 15` fails), so `npargsort` runs a single insertion sort,
which is stable: the index list it produces is strictly increasing in the
lexicographic order (key value, then original index).  These lemmas prove
that, and with it the amended sort-stability and idempotence claims. -/

/-- The strict lexicographic order on indices compared first through their
keys, then by the index itself: a stable argsort is exactly one that lists
indices in this order. -/
def lexLt (keys : List Nat) (i j : Nat) : Prop :=
  keys.getD i 0 < keys.getD j 0 ∨ (keys.getD i 0 = keys.getD j 0 ∧ i < j)

theorem insertIdx_append_left {α : Type} (A B : List α) (q : Nat) (x : α)
    (hq : q ≤ A.length) : (A ++ B).insertIdx q x = A.insertIdx q x ++ B := by
  induction A generalizing q with
  | nil =>
    have : q = 0 := Nat.le_zero.mp hq
    subst this
    simp
  | cons a rest ih =>
    cases q with
    | zero => simp
    | succ n =>
      simp only [List.cons_append, List.insertIdx_succ_cons]
      exact congrArg (a :: ·) (ih n (Nat.le_of_succ_le_succ hq))

theorem insertIdx_eq_take_cons_drop {α : Type} (A : List α) (q : Nat) (x : α)
    (hq : q ≤ A.length) :
    A.insertIdx q x = A.take q ++ x :: A.drop q := by
  induction A generalizing q with
  | nil =>
    have : q = 0 := Nat.le_zero.mp hq
    subst this
    simp
  | cons a rest ih =>
    cases q with
    | zero => simp
    | succ n =>
      simp only [List.insertIdx_succ_cons, List.take_succ_cons, List.drop_succ_cons,
        List.cons_append]
      rw [ih n (by simpa using hq)]

theorem insPos_spec (keys ts : List Nat) (vp : Nat) :
    ∀ pj, (∀ p, insPos keys ts 0 vp pj ≤ p → p < pj →
        vp < keys.getD (ts.getD p 0) 0) ∧
      (0 < insPos keys ts 0 vp pj →
        ¬ vp < keys.getD (ts.getD (insPos keys ts 0 vp pj - 1) 0) 0) := by
  intro pj
  induction pj with
  | zero =>
    exact ⟨fun p h1 h2 => absurd h2 (Nat.not_lt_zero p),
      fun h => absurd h (Nat.lt_irrefl 0)⟩
  | succ n ih =>
    have hred : insPos keys ts 0 vp (n + 1)
        = if 0 ≤ n && vp < keys.getD (ts.getD n 0) 0 then insPos keys ts 0 vp n
          else n + 1 := rfl
    by_cases hc : vp < keys.getD (ts.getD n 0) 0
    · have he : insPos keys ts 0 vp (n + 1) = insPos keys ts 0 vp n := by
        rw [hred, if_pos]
        simp only [Bool.and_eq_true, decide_eq_true_eq]
        exact ⟨Nat.zero_le n, hc⟩
      refine ⟨?_, ?_⟩
      · intro p h1 h2
        rw [he] at h1
        rcases Nat.lt_succ_iff_lt_or_eq.mp h2 with h2' | h2'
        · exact ih.1 p h1 h2'
        · subst h2'
          exact hc
      · rw [he]
        exact ih.2
    · have he : insPos keys ts 0 vp (n + 1) = n + 1 := by
        rw [hred, if_neg]
        simp only [Bool.and_eq_true, decide_eq_true_eq, not_and]
        exact fun _ => hc
      refine ⟨?_, ?_⟩
      · intro p h1 h2
        rw [he] at h1
        omega
      · intro _
        rw [he]
        have hn : n + 1 - 1 = n := rfl
        rw [hn]
        exact hc

theorem pairwise_insertIdx_lex (keys A : List Nat) (q vi : Nat)
    (hq : q ≤ A.length)
    (hA : List.Pairwise (lexLt keys) A)
    (hidx : ∀ a ∈ A, a < vi)
    (hle : ∀ p (hp : p < A.length), p < q →
      keys.getD A[p] 0 ≤ keys.getD vi 0)
    (hgt : ∀ p (hp : p < A.length), q ≤ p →
      keys.getD vi 0 < keys.getD A[p] 0) :
    List.Pairwise (lexLt keys) (A.insertIdx q vi) := by
  rw [insertIdx_eq_take_cons_drop A q vi hq, List.pairwise_append]
  refine ⟨List.Pairwise.sublist (List.take_sublist q A) hA, ?_, ?_⟩
  · rw [List.pairwise_cons]
    refine ⟨?_, List.Pairwise.sublist (List.drop_sublist q A) hA⟩
    intro b hb
    rcases List.mem_iff_getElem.mp hb with ⟨k, hk, hbk⟩
    have hk' : q + k < A.length := by
      have := hk
      simp only [List.length_drop] at this
      omega
    have hbA : A[q + k] = b := by
      rw [← hbk]
      exact (List.getElem_drop A).symm
    refine Or.inl ?_
    rw [← hbA]
    exact hgt (q + k) hk' (by omega)
  · intro a ha b hb
    rcases List.mem_iff_getElem.mp ha with ⟨p, hp, hap⟩
    have hpq : p < q := by
      have := hp
      simp only [List.length_take] at this
      omega
    have hpA : p < A.length := by
      have := hp
      simp only [List.length_take] at this
      omega
    have haA : A[p] = a := by
      rw [← hap]
      exact (List.getElem_take A).symm
    rcases List.mem_cons.mp hb with rfl | hbdrop
    · rcases Nat.lt_or_eq_of_le (hle p hpA hpq) with hlt | heq
      · refine Or.inl ?_
        rw [← haA]
        exact hlt
      · refine Or.inr ⟨?_, ?_⟩
        · rw [← haA]
          exact heq
        · exact hidx a (List.mem_of_mem_take ha)
    · rcases List.mem_iff_getElem.mp hbdrop with ⟨k, hk, hbk⟩
      have hk' : q + k < A.length := by
        have := hk
        simp only [List.length_drop] at this
        omega
      have hbA : A[q + k] = b := by
        rw [← hbk]
        exact (List.getElem_drop A).symm
      have hlex := (List.pairwise_iff_getElem.mp hA) p (q + k) hpA hk' (by omega)
      rw [haA, hbA] at hlex
      exact hlex

theorem insStep_inv (keys : List Nat) (n pi : Nat) (ts : List Nat)
    (hlen : ts.length = n) (hpi1 : 1 ≤ pi) (hpin : pi < n)
    (hpre : List.Pairwise (lexLt keys) (ts.take pi))
    (hbound : ∀ a ∈ ts.take pi, a < pi)
    (hdrop : ts.drop pi = List.range' pi (n - pi)) :
    (insStep keys ts 0 pi).length = n ∧
    List.Pairwise (lexLt keys) ((insStep keys ts 0 pi).take (pi + 1)) ∧
    (∀ a ∈ (insStep keys ts 0 pi).take (pi + 1), a < pi + 1) ∧
    (insStep keys ts 0 pi).drop (pi + 1) = List.range' (pi + 1) (n - (pi + 1)) := by
  have hpilen : pi < ts.length := by omega
  have hdropc : ts.drop pi = pi :: List.range' (pi + 1) (n - (pi + 1)) := by
    rw [hdrop]
    have hm : n - pi = (n - (pi + 1)) + 1 := by omega
    rw [hm, List.range'_succ]
  have hdec := List.drop_eq_getElem_cons hpilen
  rw [hdropc] at hdec
  have htspi : ts[pi] = pi := (List.cons.injEq _ _ _ _ ▸ hdec.symm).1
  have hdrop1 : ts.drop (pi + 1) = List.range' (pi + 1) (n - (pi + 1)) :=
    (List.cons.injEq _ _ _ _ ▸ hdec.symm).2
  have hgdpi : ts.getD pi 0 = pi := by
    rw [List.getD_eq_getElem ts 0 hpilen, htspi]
  have hAlen : (ts.take pi).length = pi := by
    simp [List.length_take]
    omega
  have hqle := insPos_le keys ts 0 (keys.getD pi 0) pi
  have hspec := insPos_spec keys ts (keys.getD pi 0) pi
  have hstep : insStep keys ts 0 pi
      = (ts.take pi).insertIdx (insPos keys ts 0 (keys.getD pi 0) pi) pi
        ++ ts.drop (pi + 1) := by
    simp only [insStep, moveElem, hgdpi]
    rw [if_pos hpilen, List.eraseIdx_eq_take_drop_succ]
    exact insertIdx_append_left _ _ _ pi (by omega)
  have hinslen : ((ts.take pi).insertIdx (insPos keys ts 0 (keys.getD pi 0) pi)
      pi).length = pi + 1 := by
    rw [List.length_insertIdx _ _ (by omega), hAlen]
  have hAp : ∀ (p : Nat) (hp2 : p < (ts.take pi).length),
      ts.getD p 0 = (ts.take pi)[p] := by
    intro p hp2
    rw [List.getElem_take]
    exact List.getD_eq_getElem ts 0 _
  have hpair : List.Pairwise (lexLt keys)
      ((ts.take pi).insertIdx (insPos keys ts 0 (keys.getD pi 0) pi) pi) := by
    refine pairwise_insertIdx_lex keys (ts.take pi) _ pi (by omega) hpre hbound
      ?_ ?_
    · intro p hp hpq
      have hppi : p < pi := by
        have := hp
        rw [hAlen] at this
        omega
      rw [← hAp p hp]
      by_cases hq0 : insPos keys ts 0 (keys.getD pi 0) pi = 0
      · omega
      · have hlast := hspec.2 (by omega)
        have hlast' : keys.getD (ts.getD
            (insPos keys ts 0 (keys.getD pi 0) pi - 1) 0) 0
            ≤ keys.getD pi 0 := Nat.le_of_not_lt hlast
        rcases Nat.lt_or_eq_of_le (Nat.le_sub_one_of_lt hpq) with h | h
        · -- p < q - 1 : use sortedness of the prefix
          have hq1pi : insPos keys ts 0 (keys.getD pi 0) pi - 1 < pi := by omega
          have hlex := (List.pairwise_iff_getElem.mp hpre) p
            (insPos keys ts 0 (keys.getD pi 0) pi - 1) (by omega) (by omega)
            (by omega)
          have hq1len : insPos keys ts 0 (keys.getD pi 0) pi - 1
              < (ts.take pi).length := by
            rw [hAlen]
            omega
          have hkey : keys.getD (ts.take pi)[p] 0
              ≤ keys.getD (ts.take pi)[insPos keys ts 0 (keys.getD pi 0) pi
                - 1] 0 := by
            rcases hlex with h' | h'
            · exact Nat.le_of_lt h'
            · exact Nat.le_of_eq h'.1
          rw [← hAp p hp, ← hAp _ hq1len] at hkey
          exact Nat.le_trans hkey hlast'
        · rw [← h] at hlast'
          exact hlast'
    · intro p hp hpq
      have hppi : p < pi := by
        have := hp
        rw [hAlen] at this
        omega
      rw [← hAp p hp]
      exact hspec.1 p hpq hppi
  refine ⟨?_, ?_, ?_, ?_⟩
  · rw [hstep, List.length_append, hinslen, List.length_drop]
    omega
  · rw [hstep, List.take_left' hinslen]
    exact hpair
  · rw [hstep, List.take_left' hinslen]
    intro a ha
    rcases (List.mem_insertIdx (by omega)).mp ha with rfl | haA
    · omega
    · exact Nat.lt_succ_of_lt (hbound a haA)
  · rw [hstep, List.drop_left' hinslen]
    exact hdrop1


theorem ins_fold_inv (keys : List Nat) (n : Nat) :
    ∀ m pi ts, 1 ≤ pi → pi + m = n → ts.length = n →
      List.Pairwise (lexLt keys) (ts.take pi) →
      (∀ a ∈ ts.take pi, a < pi) →
      ts.drop pi = List.range' pi (n - pi) →
      List.Pairwise (lexLt keys)
        ((List.range' pi m).foldl (fun acc p => insStep keys acc 0 p) ts) := by
  intro m
  induction m with
  | zero =>
    intro pi ts h1 h2 hlen hpre hbound hdrop
    have hpn : pi = n := by omega
    subst hpn
    have htake : ts.take pi = ts := List.take_of_length_le (le_of_eq hlen)
    rw [htake] at hpre
    simpa using hpre
  | succ m ih =>
    intro pi ts h1 h2 hlen hpre hbound hdrop
    rw [List.range'_succ, List.foldl_cons]
    have step := insStep_inv keys n pi ts hlen h1 (by omega) hpre hbound hdrop
    exact ih (pi + 1) (insStep keys ts 0 pi) (by omega) (by omega)
      step.1 step.2.1 step.2.2.1 step.2.2.2

theorem drop_one_range (n : Nat) :
    (List.range n).drop 1 = List.range' 1 (n - 1) := by
  refine List.ext_getElem (by simp) fun i h1 h2 => ?_
  rw [List.getElem_drop, List.getElem_range, List.getElem_range']
  omega

theorem insertionRange_lex_range (keys : List Nat) (n : Nat) :
    List.Pairwise (lexLt keys) (insertionRange keys (List.range n) 0 (n - 1)) := by
  cases n with
  | zero => simp [insertionRange]
  | succ k =>
    unfold insertionRange
    have hn : (k + 1 - 1) - 0 = k := by omega
    rw [hn]
    refine ins_fold_inv keys (k + 1) k 1 (List.range (k + 1)) (Nat.le_refl 1)
      (by omega) (by simp) ?_ ?_ ?_
    · have : (List.range (k + 1)).take 1 = [0] := by
        rw [List.range_succ_eq_map]
        rfl
      rw [this]
      exact List.pairwise_singleton _ 0
    · intro a ha
      have : (List.range (k + 1)).take 1 = [0] := by
        rw [List.range_succ_eq_map]
        rfl
      rw [this] at ha
      have : a = 0 := List.mem_singleton.mp ha
      omega
    · rw [drop_one_range]

theorem qsLoop_insertion (keys : List Nat) (fuel pl pr : Nat) (depth : Int)
    (ts : List Nat) (hsize : pr - pl ≤ 15) :
    qsLoop keys (fuel + 1) pl pr depth ts [] = insertionRange keys ts pl pr := by
  simp only [qsLoop]
  rw [if_neg (by omega)]

theorem npargsort_eq_insertion_small (keys : List Nat) (h : keys.length ≤ 16) :
    npargsort keys
      = insertionRange keys (List.range keys.length) 0 (keys.length - 1) := by
  simp only [npargsort]
  have hf : 4 * keys.length + 16 = (4 * keys.length + 15) + 1 := by omega
  rw [hf]
  exact qsLoop_insertion keys _ 0 (keys.length - 1) _ _ (by omega)

theorem npargsort_lex_small (keys : List Nat) (h : keys.length ≤ 16) :
    List.Pairwise (lexLt keys) (npargsort keys) := by
  rw [npargsort_eq_insertion_small keys h]
  exact insertionRange_lex_range keys keys.length


/-! ## Row-level consequences: sortedness and stability for small logs -/

theorem keys_getD_eq_date (rows : List GameEvent) (i : Nat)
    (hi : i < rows.length) :
    (rows.map (fun e => e.game_date)).getD i 0
      = (rows.getD i default).game_date := by
  rw [List.getD_eq_getElem _ 0 (by simpa using hi),
    List.getD_eq_getElem _ default hi, List.getElem_map]

theorem npargsort_mem_lt (keys : List Nat) (i : Nat)
    (hi : i ∈ npargsort keys) : i < keys.length :=
  List.mem_range.mp (((npargsort_perm keys).mem_iff).mp hi)

theorem sort_values_pairwise_small (rows : List GameEvent)
    (h16 : rows.length ≤ 16) :
    List.Pairwise (fun a b : GameEvent => a.game_date ≤ b.game_date)
      (sort_values_by_date rows) := by
  unfold sort_values_by_date
  rw [List.pairwise_map]
  have hlex := npargsort_lex_small (rows.map (fun e => e.game_date))
    (by simpa using h16)
  refine List.Pairwise.imp_of_mem ?_ hlex
  intro i j hi hj hlex'
  have hiL : i < rows.length := by
    simpa using npargsort_mem_lt _ _ hi
  have hjL : j < rows.length := by
    simpa using npargsort_mem_lt _ _ hj
  rcases hlex' with hlt | ⟨heq, _⟩
  · rw [keys_getD_eq_date rows i hiL, keys_getD_eq_date rows j hjL] at hlt
    exact Nat.le_of_lt hlt
  · rw [keys_getD_eq_date rows i hiL, keys_getD_eq_date rows j hjL] at heq
    exact Nat.le_of_eq heq

theorem filter_argsort_eq (keys : List Nat) (h16 : keys.length ≤ 16)
    (g : Nat → Bool)
    (hg : ∀ i j, i < keys.length → j < keys.length → g i = true →
      g j = true → keys.getD i 0 = keys.getD j 0) :
    (npargsort keys).filter g = (List.range keys.length).filter g := by
  haveI : IsAntisymm Nat (· < ·) :=
    ⟨fun a b h1 h2 => absurd h2 (Nat.lt_asymm h1)⟩
  refine @List.eq_of_perm_of_sorted Nat (fun a b => a < b) _ _ _
    ((npargsort_perm keys).filter g) ?_ ?_
  · have hfil := List.Pairwise.filter g (npargsort_lex_small keys h16)
    refine List.Pairwise.imp_of_mem ?_ hfil
    intro i j hi hj hlex'
    have hgi : g i = true := (List.mem_filter.mp hi).2
    have hgj : g j = true := (List.mem_filter.mp hj).2
    have hiL : i < keys.length :=
      npargsort_mem_lt _ _ (List.mem_filter.mp hi).1
    have hjL : j < keys.length :=
      npargsort_mem_lt _ _ (List.mem_filter.mp hj).1
    rcases hlex' with hlt | ⟨_, hij⟩
    · rw [hg i j hiL hjL hgi hgj] at hlt
      exact absurd hlt (Nat.lt_irrefl _)
    · exact hij
  · exact List.Pairwise.filter g (List.pairwise_lt_range keys.length)

theorem sort_values_filter_date_small (rows : List GameEvent)
    (h16 : rows.length ≤ 16) (D : Nat) :
    (sort_values_by_date rows).filter (fun e => e.game_date = D)
      = rows.filter (fun e => e.game_date = D) := by
  unfold sort_values_by_date
  rw [List.filter_map]
  conv_rhs => rw [← map_getD_range rows]
  rw [List.filter_map]
  congr 1
  have hlenk : (rows.map (fun e => e.game_date)).length = rows.length := by
    simp
  rw [← hlenk]
  refine filter_argsort_eq _ (by simpa using h16) _ ?_
  intro i j hi hj hgi hgj
  have hiL : i < rows.length := by simpa using hi
  have hjL : j < rows.length := by simpa using hj
  have hdi : (rows.getD i default).game_date = D := by
    simpa using hgi
  have hdj : (rows.getD j default).game_date = D := by
    simpa using hgj
  rw [keys_getD_eq_date rows i hiL, keys_getD_eq_date rows j hjL, hdi, hdj]


/-! ## The sort is the identity on an already-sorted small list -/

theorem erase_insert_self (ts : List Nat) (pi : Nat) (h : pi < ts.length) :
    (ts.eraseIdx pi).insertIdx pi (ts.getD pi 0) = ts := by
  have hAlen : (ts.take pi).length = pi := by
    simp [List.length_take]
    omega
  have h1 : ∀ (A : List Nat) (x : Nat), A.length = pi → A.insertIdx pi x
      = A ++ [x] := by
    intro A x hA
    rw [← hA]
    exact List.insertIdx_length_self A x
  rw [List.eraseIdx_eq_take_drop_succ,
    insertIdx_append_left (ts.take pi) _ pi _ (by omega), h1 _ _ hAlen,
    List.append_assoc, List.singleton_append,
    List.getD_eq_getElem ts 0 h, ← List.drop_eq_getElem_cons h,
    List.take_append_drop]

theorem insStep_fixed (keys : List Nat) (n pi : Nat) (hpi1 : 1 ≤ pi)
    (hpin : pi < n)
    (hsorted : keys.getD (pi - 1) 0 ≤ keys.getD pi 0) :
    insStep keys (List.range n) 0 pi = List.range n := by
  have hgd : ∀ p, p < n → (List.range n).getD p 0 = p := by
    intro p hp
    rw [List.getD_eq_getElem _ 0 (by simpa using hp), List.getElem_range]
  simp only [insStep]
  rw [hgd pi hpin]
  cases pi with
  | zero => omega
  | succ m =>
    have hred : insPos keys (List.range n) 0 (keys.getD (m + 1) 0) (m + 1)
        = if 0 ≤ m && keys.getD (m + 1) 0
              < keys.getD ((List.range n).getD m 0) 0
          then insPos keys (List.range n) 0 (keys.getD (m + 1) 0) m
          else m + 1 := rfl
    have hm : (m + 1 : Nat) - 1 = m := rfl
    rw [hm] at hsorted
    have hins : insPos keys (List.range n) 0 (keys.getD (m + 1) 0) (m + 1)
        = m + 1 := by
      rw [hred, if_neg]
      simp only [Bool.and_eq_true, decide_eq_true_eq, not_and]
      intro _
      rw [hgd m (by omega)]
      omega
    rw [hins]
    simp only [moveElem]
    rw [if_pos (by simpa using hpin)]
    exact erase_insert_self _ (m + 1) (by simpa using hpin)

theorem ins_fold_fixed (keys : List Nat) (n : Nat)
    (hsorted : ∀ i, i + 1 < n → keys.getD i 0 ≤ keys.getD (i + 1) 0) :
    ∀ m pi, 1 ≤ pi → pi + m = n →
      (List.range' pi m).foldl (fun acc p => insStep keys acc 0 p)
        (List.range n) = List.range n := by
  intro m
  induction m with
  | zero => intro pi h1 h2; rfl
  | succ m ih =>
    intro pi h1 h2
    have hstep : insStep keys (List.range n) 0 pi = List.range n := by
      refine insStep_fixed keys n pi h1 (by omega) ?_
      have := hsorted (pi - 1) (by omega)
      rwa [Nat.sub_add_cancel h1] at this
    rw [List.range'_succ, List.foldl_cons, hstep, ih (pi + 1) (by omega)
      (by omega)]

theorem npargsort_fixed_small (keys : List Nat) (h16 : keys.length ≤ 16)
    (hsorted : ∀ i, i + 1 < keys.length →
      keys.getD i 0 ≤ keys.getD (i + 1) 0) :
    npargsort keys = List.range keys.length := by
  rw [npargsort_eq_insertion_small keys h16]
  rcases hn : keys.length with _ | k
  · rfl
  · rw [hn] at hsorted
    unfold insertionRange
    have he : (k + 1 - 1) - 0 = k := by omega
    rw [he]
    exact ins_fold_fixed keys (k + 1) hsorted k 1 (Nat.le_refl 1) (by omega)

theorem sort_values_fixed_small (rows : List GameEvent)
    (h16 : rows.length ≤ 16)
    (hsorted : List.Pairwise
      (fun a b : GameEvent => a.game_date ≤ b.game_date) rows) :
    sort_values_by_date rows = rows := by
  unfold sort_values_by_date
  rw [npargsort_fixed_small _ (by simpa using h16) ?_]
  · rw [List.length_map]
    exact map_getD_range rows
  · intro i hi1
    have hiL : i + 1 < rows.length := by simpa using hi1
    have hp := (List.pairwise_iff_getElem.mp hsorted) i (i + 1) (by omega) hiL
      (by omega)
    rw [keys_getD_eq_date rows i (by omega),
      keys_getD_eq_date rows (i + 1) hiL,
      List.getD_eq_getElem rows default (by omega : i < rows.length),
      List.getD_eq_getElem rows default hiL]
    exact hp

/-! ## The pipeline output as an annotated enumeration -/

theorem logPipeline_eq_enum (etype : String) (cp : GameEvent → Option Int)
    (lookup : Int → Option (String × String)) (table : List GameEvent)
    (start end_ : Nat) (team : String) :
    logPipeline etype cp lookup table start end_ team
      = (sort_values_by_date
          (retainedEvents etype table start end_ team)).enum.map
        (fun p => { ev := p.2, seqNo := p.1 + 1, mmdd := mmddOf p.2.game_date,
                    counterparty := counterpartyName lookup (cp p.2) }) := by
  simp only [logPipeline]
  split
  case isTrue h =>
    rw [retainedEvents_of_empty etype table start end_ team
      (List.isEmpty_iff.mp h)]
    rfl
  case isFalse h => rfl

theorem logPipeline_map_ev (etype : String) (cp : GameEvent → Option Int)
    (lookup : Int → Option (String × String)) (table : List GameEvent)
    (start end_ : Nat) (team : String) :
    (logPipeline etype cp lookup table start end_ team).map (fun r => r.ev)
      = sort_values_by_date (retainedEvents etype table start end_ team) := by
  rw [logPipeline_eq_enum, List.map_map]
  have hc : ((fun r : LogRow => r.ev) ∘ (fun p : Nat × GameEvent =>
      ({ ev := p.2, seqNo := p.1 + 1, mmdd := mmddOf p.2.game_date,
         counterparty := counterpartyName lookup (cp p.2) } : LogRow)))
      = Prod.snd := rfl
  rw [hc, List.enum_map_snd]


theorem retainedEvents_eq_self (etype : String) (l : List GameEvent)
    (start end_ : Nat) (team : String)
    (hmem : ∀ x ∈ l, start ≤ x.game_date ∧ x.game_date ≤ end_ ∧
      eligMask team x.game_date = true ∧ x.events = etype) :
    retainedEvents etype l start end_ team = l := by
  have hf1 : l.filter (fun e => start ≤ e.game_date && e.game_date ≤ end_)
      = l := by
    refine List.filter_eq_self.mpr fun a ha => ?_
    simp only [Bool.and_eq_true, decide_eq_true_eq]
    exact ⟨(hmem a ha).1, (hmem a ha).2.1⟩
  have hf2 : l.filter (fun e => eligMask team e.game_date) = l :=
    List.filter_eq_self.mpr fun a ha => (hmem a ha).2.2.1
  have hf3 : l.filter (fun e => e.events = etype) = l := by
    refine List.filter_eq_self.mpr fun a ha => ?_
    simp only [decide_eq_true_eq]
    exact (hmem a ha).2.2.2
  unfold retainedEvents
  rw [hf1, hf2, hf3]

theorem logPipeline_idem_small (etype : String) (cp : GameEvent → Option Int)
    (lookup : Int → Option (String × String)) (table : List GameEvent)
    (start end_ : Nat) (team : String)
    (h16 : (retainedEvents etype table start end_ team).length ≤ 16) :
    logPipeline etype cp lookup
      ((logPipeline etype cp lookup table start end_ team).map (fun r => r.ev))
      start end_ team
      = logPipeline etype cp lookup table start end_ team := by
  rw [logPipeline_map_ev etype cp lookup table start end_ team]
  have hperm := sort_values_perm (retainedEvents etype table start end_ team)
  have hmem : ∀ x ∈ sort_values_by_date
      (retainedEvents etype table start end_ team),
      x ∈ table ∧ start ≤ x.game_date ∧ x.game_date ≤ end_ ∧
        eligMask team x.game_date = true ∧ x.events = etype := by
    intro x hx
    exact (mem_retainedEvents etype table start end_ team x).mp
      (hperm.mem_iff.mp hx)
  have hR2 : retainedEvents etype
      (sort_values_by_date (retainedEvents etype table start end_ team))
      start end_ team
      = sort_values_by_date (retainedEvents etype table start end_ team) :=
    retainedEvents_eq_self etype _ start end_ team fun x hx => (hmem x hx).2
  have hfix : sort_values_by_date (sort_values_by_date
      (retainedEvents etype table start end_ team))
      = sort_values_by_date (retainedEvents etype table start end_ team) :=
    sort_values_fixed_small _ (by rw [hperm.length_eq]; exact h16)
      (sort_values_pairwise_small _ h16)
  rw [logPipeline_eq_enum etype cp lookup _ start end_ team, hR2, hfix,
    ← logPipeline_eq_enum etype cp lookup table start end_ team]

theorem logPipeline_stable_small (etype : String) (cp : GameEvent → Option Int)
    (lookup : Int → Option (String × String)) (table : List GameEvent)
    (start end_ : Nat) (team : String)
    (h16 : (retainedEvents etype table start end_ team).length ≤ 16) :
    List.Pairwise (fun a b : LogRow => a.ev.game_date ≤ b.ev.game_date)
      (logPipeline etype cp lookup table start end_ team) ∧
    ∀ D : Nat, ((logPipeline etype cp lookup table start end_ team).map
        (fun r => r.ev)).filter (fun e => e.game_date = D)
      = (retainedEvents etype table start end_ team).filter
        (fun e => e.game_date = D) := by
  constructor
  · have hp := sort_values_pairwise_small _ h16
    rw [← logPipeline_map_ev etype cp lookup table start end_ team] at hp
    exact (@List.pairwise_map LogRow GameEvent (fun r => r.ev)
      (fun a b => a.game_date ≤ b.game_date)
      (logPipeline etype cp lookup table start end_ team)).mp hp
  · intro D
    rw [logPipeline_map_ev etype cp lookup table start end_ team]
    exact sort_values_filter_date_small _ h16 D

/-! ## Concrete inputs exercising the unstable sort

`tbl17` holds seventeen home-run events on one date; seventeen elements is
the first size at which the introsort driver partitions (`pr - pl = 16 >
15`), and the partition exchange loop swaps equal elements. -/

/-- A lookup directory under which every resolution fails. -/
def cexLookup : Int → Option (String × String) := fun _ => none

/-- Seventeen home-run events on the same date (2025-04-01), distinguished
only by their pitcher ids 0..16, in input order. -/
def tbl17 : List GameEvent :=
  (List.range 17).map (fun i =>
    { game_date := 20250401, events := "home_run", home_team := "LAD",
      away_team := "NYY", pitcher := some (i : Int), batter := none })


/-- A small log (four events, two of them tied on one date) for the
stability and idempotence witnesses. -/
def tblW : List GameEvent :=
  [ { game_date := 20250401, events := "home_run", home_team := "LAD",
      away_team := "NYY", pitcher := some 7, batter := some 1 },
    { game_date := 20250401, events := "home_run", home_team := "LAD",
      away_team := "NYY", pitcher := some 8, batter := some 2 },
    { game_date := 20250330, events := "home_run", home_team := "LAD",
      away_team := "NYY", pitcher := some 9, batter := some 3 },
    { game_date := 20250330, events := "strikeout", home_team := "LAD",
      away_team := "NYY", pitcher := some 9, batter := some 3 } ]

/-- C3 (counterexample to the claim as stated).  On `tbl17` — seventeen
retained home-run events sharing one date — the filtered log does not keep
the input's relative order: the events that entered at positions 13 and 14
(pitcher ids 13 and 14) leave at positions 2 and 1 respectively, although
their dates are equal.  The default `kind='quicksort'` sort partitions a
17-element column and exchanges equal elements. -/
theorem c3_counterexample :
    retainedEvents "home_run" tbl17 20250318 20251001 "NYY" = tbl17 ∧
    (∀ e ∈ tbl17, e.game_date = 20250401) ∧
    tbl17.getD 13 default
      = { game_date := 20250401, events := "home_run", home_team := "LAD",
          away_team := "NYY", pitcher := some 13, batter := none } ∧
    tbl17.getD 14 default
      = { game_date := 20250401, events := "home_run", home_team := "LAD",
          away_team := "NYY", pitcher := some 14, batter := none } ∧
    ((fetch_hr_log cexLookup tbl17 20250318 20251001 "NYY").map
      (fun r => r.ev)).getD 1 default = tbl17.getD 14 default ∧
    ((fetch_hr_log cexLookup tbl17 20250318 20251001 "NYY").map
      (fun r => r.ev)).getD 2 default = tbl17.getD 13 default :=
  ⟨by decide, by decide, by decide, by decide, by decide, by decide⟩

/-- C3 (amended).  The retained events of the filtered log are sorted by
date ascending with equal-date events in their input relative order
whenever at most 16 events are retained (the regime in which the default
sort runs its stable insertion sort; the claim as stated fails for larger
logs, see the counterexample).  Tie preservation is stated as: for every
date, the output events carrying that date equal the retained events
carrying that date, in order. -/
theorem c3_stable_sort_small (lookup : Int → Option (String × String))
    (table : List GameEvent) (start end_ : Nat) (team : String) :
    ((retainedEvents "home_run" table start end_ team).length ≤ 16 →
      List.Pairwise (fun a b : LogRow => a.ev.game_date ≤ b.ev.game_date)
        (fetch_hr_log lookup table start end_ team) ∧
      ∀ D : Nat, ((fetch_hr_log lookup table start end_ team).map
          (fun r => r.ev)).filter (fun e => e.game_date = D)
        = (retainedEvents "home_run" table start end_ team).filter
          (fun e => e.game_date = D)) ∧
    ((retainedEvents "strikeout" table start end_ team).length ≤ 16 →
      List.Pairwise (fun a b : LogRow => a.ev.game_date ≤ b.ev.game_date)
        (fetch_k_log lookup table start end_ team) ∧
      ∀ D : Nat, ((fetch_k_log lookup table start end_ team).map
          (fun r => r.ev)).filter (fun e => e.game_date = D)
        = (retainedEvents "strikeout" table start end_ team).filter
          (fun e => e.game_date = D)) :=
  ⟨fun h16 => logPipeline_stable_small "home_run" (fun e => e.pitcher)
      lookup table start end_ team h16,
   fun h16 => logPipeline_stable_small "strikeout" (fun e => e.batter)
      lookup table start end_ team h16⟩

/-- C3 (witness).  The amended theorem applied to the concrete four-event
log `tblW`, whose hypothesis is discharged by evaluation. -/
theorem c3_stable_sort_small_witness :
    (retainedEvents "home_run" tblW 20250318 20251001 "NYY").length ≤ 16 ∧
    (List.Pairwise (fun a b : LogRow => a.ev.game_date ≤ b.ev.game_date)
        (fetch_hr_log cexLookup tblW 20250318 20251001 "NYY") ∧
      ∀ D : Nat, ((fetch_hr_log cexLookup tblW 20250318 20251001 "NYY").map
          (fun r => r.ev)).filter (fun e => e.game_date = D)
        = (retainedEvents "home_run" tblW 20250318 20251001 "NYY").filter
          (fun e => e.game_date = D)) :=
  ⟨by decide, (c3_stable_sort_small cexLookup tblW 20250318 20251001
    "NYY").1 (by decide)⟩

/-- C9 (counterexample to the claim as stated).  Feeding the filtered log
of `tbl17` back through the same pipeline with the same parameters changes
it: the 17-element all-tied date column is permuted again by the unstable
sort, so the re-filtered rows differ from the input rows. -/
theorem c9_counterexample :
    fetch_hr_log cexLookup
      ((fetch_hr_log cexLookup tbl17 20250318 20251001 "NYY").map
        (fun r => r.ev)) 20250318 20251001 "NYY"
      ≠ fetch_hr_log cexLookup tbl17 20250318 20251001 "NYY" := by
  decide

/-- C9 (amended).  The filtering pipeline is idempotent whenever at most 16
events are retained (so that the date sort is the stable insertion sort,
which fixes an already-sorted log); the claim as stated fails for larger
logs, see the counterexample. -/
theorem c9_idempotent_small (lookup : Int → Option (String × String))
    (table : List GameEvent) (start end_ : Nat) (team : String) :
    ((retainedEvents "home_run" table start end_ team).length ≤ 16 →
      fetch_hr_log lookup ((fetch_hr_log lookup table start end_ team).map
        (fun r => r.ev)) start end_ team
        = fetch_hr_log lookup table start end_ team) ∧
    ((retainedEvents "strikeout" table start end_ team).length ≤ 16 →
      fetch_k_log lookup ((fetch_k_log lookup table start end_ team).map
        (fun r => r.ev)) start end_ team
        = fetch_k_log lookup table start end_ team) :=
  ⟨fun h16 => logPipeline_idem_small "home_run" (fun e => e.pitcher)
      lookup table start end_ team h16,
   fun h16 => logPipeline_idem_small "strikeout" (fun e => e.batter)
      lookup table start end_ team h16⟩

/-- C9 (witness).  The amended idempotence applied to the concrete
four-event log `tblW`, hypothesis discharged by evaluation. -/
theorem c9_idempotent_small_witness :
    fetch_hr_log cexLookup
      ((fetch_hr_log cexLookup tblW 20250318 20251001 "NYY").map
        (fun r => r.ev)) 20250318 20251001 "NYY"
      = fetch_hr_log cexLookup tblW 20250318 20251001 "NYY" :=
  (c9_idempotent_small cexLookup tblW 20250318 20251001 "NYY").1 (by decide)


/-! ## The news validity predicate (claim C6) -/

theorem listSub_append (nd h t : List Char) (hh : listSub nd h = true) :
    listSub nd (h ++ t) = true := by
  induction h with
  | nil =>
    have hnd : nd = [] := by simpa [listSub] using hh
    subst hnd
    cases t with
    | nil => rfl
    | cons c r =>
      simp [listSub]
  | cons c r ih =>
    rcases Bool.or_eq_true_iff.mp hh with hp | hs
    · have hpre : nd <+: (c :: r) := List.isPrefixOf_iff_prefix.mp hp
      have hpre2 : nd <+: (c :: r) ++ t :=
        hpre.trans (List.prefix_append (c :: r) t)
      simp only [List.cons_append, listSub]
      rw [Bool.or_eq_true_iff]
      exact Or.inl (List.isPrefixOf_iff_prefix.mpr (by simpa using hpre2))
    · simp only [List.cons_append, listSub]
      rw [Bool.or_eq_true_iff]
      exact Or.inr (ih hs)

theorem pyIn_of_left (kw s t : String) (hs : pyIn kw (pyLower s) = true) :
    pyIn kw (pyLower (s ++ t)) = true := by
  have hl : (pyLower (s ++ t)).toList
      = (pyLower s).toList ++ (pyLower t).toList := by
    simp only [pyLower]
    show ((s ++ t).data.map Char.toLower)
      = s.data.map Char.toLower ++ t.data.map Char.toLower
    rw [String.data_append, List.map_append]
  unfold pyIn at hs ⊢
  rw [hl]
  exact listSub_append _ _ _ hs

/-- C6.  News rejection predicate: an article is rejected (`is_valid_news`
false) precisely when the lower-cased combination of title and summary
contains a blocklist keyword as a substring, or both title and summary are
empty/whitespace-only; and an article titled "Fan Vote: All-Star Game" is
rejected whatever its summary, link and timestamp are. -/
theorem c6_news_rejection (article : NewsArticle) :
    (is_valid_news article = false ↔
      (∃ kw ∈ teaser_keywords,
        pyIn kw (pyLower (article.title ++ " " ++ article.summary)) = true) ∨
      (pyBlank article.title = true ∧ pyBlank article.summary = true)) ∧
    (∀ lnk smry pub, is_valid_news
        { title := "Fan Vote: All-Star Game", link := lnk, summary := smry,
          published := pub } = false) := by
  constructor
  · simp only [is_valid_news]
    by_cases h1 : teaser_keywords.any (fun kw =>
        pyIn kw (pyLower (article.title ++ " " ++ article.summary))) = true
    · rw [if_pos h1]
      exact iff_of_true rfl (Or.inl (List.any_eq_true.mp h1))
    · rw [if_neg h1]
      by_cases h2 : (pyBlank article.summary && pyBlank article.title) = true
      · rw [if_pos h2]
        rcases Bool.and_eq_true_iff.mp h2 with ⟨hs, ht⟩
        exact iff_of_true rfl (Or.inr ⟨ht, hs⟩)
      · rw [if_neg h2]
        refine iff_of_false (by simp) ?_
        rintro (⟨kw, hkw, hin⟩ | ⟨ht, hs⟩)
        · exact h1 (List.any_eq_true.mpr ⟨kw, hkw, hin⟩)
        · exact h2 (Bool.and_eq_true_iff.mpr ⟨hs, ht⟩)
  · intro lnk smry pub
    have hvote : pyIn "vote"
        (pyLower (("Fan Vote: All-Star Game" ++ " ") ++ smry)) = true := by
      refine pyIn_of_left "vote" ("Fan Vote: All-Star Game" ++ " ") smry ?_
      decide
    simp only [is_valid_news]
    rw [if_pos]
    exact List.any_eq_true.mpr ⟨"vote", by decide, hvote⟩

/-! ## The news dedupe-and-bound loop (claim C5) -/

theorem newsLoopAux_spec :
    ∀ (l : List NewsArticle) (filtered : List NewsArticle),
      ((filtered.map (fun a => a.link)).Nodup) →
      filtered.length < news_limit →
      ∃ extra,
        newsLoopAux l (filtered.map (fun a => a.link)) filtered
            = filtered ++ extra ∧
        extra.Sublist l ∧
        ((filtered ++ extra).map (fun a => a.link)).Nodup ∧
        (filtered ++ extra).length ≤ news_limit ∧
        ∀ a ∈ extra, (a.link ∉ filtered.map (fun x => x.link)) ∧
          is_valid_news a = true ∧
          (l.filter (fun b => is_valid_news b && b.link = a.link)).head?
            = some a := by
  intro l
  induction l with
  | nil =>
    intro filtered hnd hlen
    exact ⟨[], by simp [newsLoopAux], List.Sublist.refl [], by simpa using hnd,
      by simpa using Nat.le_of_lt hlen, by simp⟩
  | cons a rest ih =>
    intro filtered hnd hlen
    by_cases hval : is_valid_news a = false
    · have hred : newsLoopAux (a :: rest) (filtered.map (fun x => x.link))
          filtered = newsLoopAux rest (filtered.map (fun x => x.link))
          filtered := by
        simp only [newsLoopAux]
        rw [if_pos hval]
      rcases ih filtered hnd hlen with
        ⟨extra, heq, hsub, hnodup, hlength, hprops⟩
      refine ⟨extra, hred.trans heq, hsub.cons a, hnodup, hlength, ?_⟩
      intro b hb
      refine ⟨(hprops b hb).1, (hprops b hb).2.1, ?_⟩
      rw [List.filter_cons, if_neg (by simp [hval])]
      exact (hprops b hb).2.2
    · have hval' : is_valid_news a = true := by
        revert hval
        cases is_valid_news a <;> simp
      by_cases hseen : (filtered.map (fun x => x.link)).contains a.link = true
      · have hred : newsLoopAux (a :: rest) (filtered.map (fun x => x.link))
            filtered = newsLoopAux rest (filtered.map (fun x => x.link))
            filtered := by
          simp only [newsLoopAux]
          rw [if_neg (by simp [hval']), if_pos hseen]
          dsimp only
          rw [if_neg (by omega)]
        rcases ih filtered hnd hlen with
          ⟨extra, heq, hsub, hnodup, hlength, hprops⟩
        refine ⟨extra, hred.trans heq, hsub.cons a, hnodup, hlength, ?_⟩
        intro b hb
        refine ⟨(hprops b hb).1, (hprops b hb).2.1, ?_⟩
        have hne : (a.link = b.link) = False := by
          have hmem : a.link ∈ filtered.map (fun x => x.link) := by
            simpa using hseen
          have : b.link ∉ filtered.map (fun x => x.link) := (hprops b hb).1
          simp only [eq_iff_iff, iff_false]
          intro hab
          rw [hab] at hmem
          exact this hmem
        rw [List.filter_cons, if_neg (by simp [hne])]
        exact (hprops b hb).2.2
      · have hmap : filtered.map (fun x => x.link) ++ [a.link]
            = (filtered ++ [a]).map (fun x => x.link) := by
          rw [List.map_append]
          rfl
        have hanew : a.link ∉ filtered.map (fun x => x.link) := by
          simpa using hseen
        have hnd' : ((filtered ++ [a]).map (fun x => x.link)).Nodup := by
          rw [List.map_append, List.nodup_append]
          refine ⟨hnd, List.nodup_singleton _, ?_⟩
          intro x hx hx'
          have : x = a.link := by simpa using hx'
          rw [this] at hx
          exact hanew hx
        by_cases hfull : news_limit ≤ (filtered ++ [a]).length
        · have hred : newsLoopAux (a :: rest) (filtered.map (fun x => x.link))
              filtered = filtered ++ [a] := by
            simp only [newsLoopAux]
            rw [if_neg (by simp [hval']), if_neg hseen]
            dsimp only
            rw [if_pos hfull]
          refine ⟨[a], hred, (List.nil_sublist rest).cons₂ a, hnd', ?_, ?_⟩
          · simp only [List.length_append, List.length_singleton]
            omega
          · intro b hb
            have hba : b = a := by simpa using hb
            subst hba
            refine ⟨hanew, hval', ?_⟩
            rw [List.filter_cons, if_pos (by simp [hval'])]
            exact List.head?_cons
        · have hlt : (filtered ++ [a]).length < news_limit := by
            simp only [List.length_append, List.length_singleton] at hfull ⊢
            omega
          rcases ih (filtered ++ [a]) hnd' hlt with
            ⟨extra, heq, hsub, hnodup, hlength, hprops⟩
          have hred : newsLoopAux (a :: rest) (filtered.map (fun x => x.link))
              filtered = newsLoopAux rest ((filtered ++ [a]).map
                (fun x => x.link)) (filtered ++ [a]) := by
            simp only [newsLoopAux]
            rw [if_neg (by simp [hval']), if_neg hseen]
            dsimp only
            rw [if_neg hfull, hmap]
          have hassoc : filtered ++ a :: extra = (filtered ++ [a]) ++ extra := by
            rw [List.append_assoc]
            rfl
          refine ⟨a :: extra, ?_, hsub.cons₂ a, ?_, ?_, ?_⟩
          · rw [hred, heq, ← hassoc]
          · rw [hassoc]
            exact hnodup
          · rw [hassoc]
            exact hlength
          · intro b hb
            rcases List.mem_cons.mp hb with rfl | hbe
            · refine ⟨hanew, hval', ?_⟩
              rw [List.filter_cons, if_pos (by simp [hval'])]
              exact List.head?_cons
            · have hp := hprops b hbe
              have hblink : b.link ∉ filtered.map (fun x => x.link) := by
                intro hmem
                refine hp.1 ?_
                rw [List.map_append]
                exact List.mem_append_left _ hmem
              have hbne : b.link ≠ a.link := by
                intro hab
                refine hp.1 ?_
                rw [List.map_append]
                refine List.mem_append_right _ ?_
                simp [hab]
              refine ⟨hblink, hp.2.1, ?_⟩
              rw [List.filter_cons, if_neg ?_]
              · exact hp.2.2
              · simp only [Bool.and_eq_true, decide_eq_true_eq, not_and]
                intro _ hab
                exact hbne hab.symm


theorem newsLoopAux_append_full :
    ∀ (l more : List NewsArticle) (seen : List String)
      (filtered : List NewsArticle),
      filtered.length < news_limit →
      (newsLoopAux l seen filtered).length = news_limit →
      newsLoopAux (l ++ more) seen filtered = newsLoopAux l seen filtered := by
  intro l
  induction l with
  | nil =>
    intro more seen filtered hlen hfull
    simp only [newsLoopAux] at hfull
    exact absurd hfull (by omega)
  | cons a rest ih =>
    intro more seen filtered hlen hfull
    by_cases hval : is_valid_news a = false
    · have hred : ∀ (xs : List NewsArticle),
          newsLoopAux (a :: xs) seen filtered
            = newsLoopAux xs seen filtered := by
        intro xs
        simp only [newsLoopAux]
        rw [if_pos hval]
      rw [List.cons_append, hred (rest ++ more), hred rest]
      rw [hred rest] at hfull
      exact ih more seen filtered hlen hfull
    · have hval' : is_valid_news a = true := by
        revert hval
        cases is_valid_news a <;> simp
      by_cases hseen : seen.contains a.link = true
      · have hred : ∀ (xs : List NewsArticle),
            newsLoopAux (a :: xs) seen filtered
              = newsLoopAux xs seen filtered := by
          intro xs
          simp only [newsLoopAux]
          rw [if_neg (by simp [hval']), if_pos hseen]
          dsimp only
          rw [if_neg (by omega)]
        rw [List.cons_append, hred (rest ++ more), hred rest]
        rw [hred rest] at hfull
        exact ih more seen filtered hlen hfull
      · by_cases hfull3 : news_limit ≤ (filtered ++ [a]).length
        · have hred : ∀ (xs : List NewsArticle),
              newsLoopAux (a :: xs) seen filtered = filtered ++ [a] := by
            intro xs
            simp only [newsLoopAux]
            rw [if_neg (by simp [hval']), if_neg hseen]
            dsimp only
            rw [if_pos hfull3]
          rw [List.cons_append, hred (rest ++ more), hred rest]
        · have hlt : (filtered ++ [a]).length < news_limit := by
            simp only [List.length_append, List.length_singleton] at hfull3 ⊢
            omega
          have hred : ∀ (xs : List NewsArticle),
              newsLoopAux (a :: xs) seen filtered
                = newsLoopAux xs (seen ++ [a.link]) (filtered ++ [a]) := by
            intro xs
            simp only [newsLoopAux]
            rw [if_neg (by simp [hval']), if_neg hseen]
            dsimp only
            rw [if_neg hfull3]
          rw [List.cons_append, hred (rest ++ more), hred rest]
          rw [hred rest] at hfull
          exact ih more (seen ++ [a.link]) (filtered ++ [a]) hlt hfull

/-- C5.  News dedupe, bound and early termination: the sidebar news list has
pairwise-distinct links, holds at most `news_limit = 3` articles, is a
subsequence of the feed (input order preserved), keeps for each link exactly
the first valid article carrying it, and once the limit is reached the rest
of the feed is never consumed (appending anything after the article that
filled the list cannot change the output). -/
theorem c5_news_dedupe (articles : List NewsArticle) :
    ((filter_news articles).map (fun a => a.link)).Nodup ∧
    (filter_news articles).length ≤ news_limit ∧
    (filter_news articles).Sublist articles ∧
    (∀ a ∈ filter_news articles, is_valid_news a = true ∧
      (articles.filter
        (fun b => is_valid_news b && b.link = a.link)).head? = some a) ∧
    ((filter_news articles).length = news_limit →
      ∀ more, filter_news (articles ++ more) = filter_news articles) := by
  rcases newsLoopAux_spec articles [] (by simp) (by simp [news_limit]) with
    ⟨extra, heq, hsub, hnodup, hlength, hprops⟩
  have hfn : filter_news articles = extra := by
    unfold filter_news
    simpa using heq
  refine ⟨?_, ?_, ?_, ?_, ?_⟩
  · rw [hfn]
    simpa using hnodup
  · rw [hfn]
    simpa using hlength
  · rw [hfn]
    exact hsub
  · intro a ha
    rw [hfn] at ha
    exact ⟨(hprops a ha).2.1, (hprops a ha).2.2⟩
  · intro hlen3 more
    unfold filter_news at hlen3 ⊢
    exact newsLoopAux_append_full articles more [] []
      (by simp [news_limit]) hlen3

/-- A six-article feed with a duplicated link and a teaser article, for the
news witness. -/
def newsW : List NewsArticle :=
  [ { title := "Judge ties record", link := "lnk1", summary := "recap",
      published := "" },
    { title := "Judge ties record", link := "lnk1", summary := "recap",
      published := "" },
    { title := "Vote now for the All-Star Game", link := "lnk2",
      summary := "ballot", published := "" },
    { title := "Ohtani strikes out ten", link := "lnk3", summary := "gem",
      published := "" },
    { title := "Trade deadline primer", link := "lnk4",
      summary := "analysis", published := "" },
    { title := "Injury notes", link := "lnk5", summary := "notes",
      published := "" } ]

/-- A further article appended after the limit is reached. -/
def newsExtra : NewsArticle :=
  { title := "Extra", link := "lnk6", summary := "x", published := "" }

/-- C5 (witness).  The dedupe theorem applied to the concrete feed `newsW`,
whose output fills the limit after the fifth article, so the early
termination clause applies to any appended tail. -/
theorem c5_news_dedupe_witness :
    ((filter_news newsW).map (fun a => a.link)).Nodup ∧
    (filter_news newsW).length ≤ news_limit ∧
    filter_news (newsW ++ [newsExtra]) = filter_news newsW :=
  ⟨(c5_news_dedupe newsW).1, (c5_news_dedupe newsW).2.1,
   (c5_news_dedupe newsW).2.2.2.2 (by decide) [newsExtra]⟩


/-! ## Fail-soft name resolution (claim C7) -/

theorem toDigitsCore_length_le (b : Nat) :
    ∀ (f n : Nat) (ds : List Char),
      ds.length ≤ (Nat.toDigitsCore b f n ds).length := by
  intro f
  induction f with
  | zero => intro n ds; exact Nat.le_refl _
  | succ f ih =>
    intro n ds
    simp only [Nat.toDigitsCore]
    split
    · simp
    · have h1 := ih (n / b) (Nat.digitChar (n % b) :: ds)
      have h2 : ds.length ≤ (Nat.digitChar (n % b) :: ds).length := by simp
      exact Nat.le_trans h2 h1

theorem toDigits_ne_nil (b n : Nat) : Nat.toDigits b n ≠ [] := by
  unfold Nat.toDigits
  simp only [Nat.toDigitsCore]
  split
  · simp
  · intro h
    have hle := toDigitsCore_length_le b n (n / b)
      [Nat.digitChar (n % b)]
    rw [h] at hle
    simp at hle

theorem nat_repr_ne_empty (n : Nat) : Nat.repr n ≠ "" := by
  unfold Nat.repr
  intro h
  have hdata := congrArg String.data h
  have hnil : Nat.toDigits 10 n = [] := by
    simpa [List.asString] using hdata
  exact toDigits_ne_nil 10 n hnil

theorem int_toString_ne_empty (p : Int) : toString p ≠ "" := by
  cases p with
  | ofNat m => exact nat_repr_ne_empty m
  | negSucc m =>
    show "-" ++ toString (Nat.succ m) ≠ ""
    intro h
    have hdata := congrArg String.data h
    rw [String.data_append] at hdata
    simp at hdata

/-- C7.  Fail-soft name resolution: `pid2name` never raises (it is total);
a successful directory lookup yields `"first last"`, any failed lookup
yields the id's string form, which is never empty; and an absent
counterparty id resolves to the empty string. -/
theorem c7_fail_soft_resolution (lookup : Int → Option (String × String))
    (p : Int) (first last : String) :
    (lookup p = none → pid2name lookup p = toString p ∧ toString p ≠ "") ∧
    (lookup p = some (first, last) →
      pid2name lookup p = first ++ " " ++ last) ∧
    counterpartyName lookup none = "" := by
  refine ⟨?_, ?_, rfl⟩
  · intro h
    unfold pid2name
    rw [h]
    exact ⟨rfl, int_toString_ne_empty p⟩
  · intro h
    unfold pid2name
    rw [h]

/-- A directory that knows exactly one id, for the resolution witness. -/
def lkpW : Int → Option (String × String) := fun p =>
  if p = 660271 then some ("Shohei", "Ohtani") else none

/-- C7 (witness).  The resolution theorem applied to the one-entry
directory `lkpW`: the known id resolves to the full name, the unresolvable
id `-5` resolves to its text form `"-5"`, which is non-empty, and a missing
counterparty gives the empty string. -/
theorem c7_fail_soft_resolution_witness :
    pid2name lkpW 660271 = "Shohei" ++ " " ++ "Ohtani" ∧
    pid2name lkpW (-5) = toString (-5 : Int) ∧
    toString (-5 : Int) ≠ "" ∧
    counterpartyName lkpW none = "" :=
  ⟨(c7_fail_soft_resolution lkpW 660271 "Shohei" "Ohtani").2.1 (by decide),
   ((c7_fail_soft_resolution lkpW (-5) "" "").1 (by decide)).1,
   ((c7_fail_soft_resolution lkpW (-5) "" "").1 (by decide)).2,
   (c7_fail_soft_resolution lkpW 0 "" "").2.2⟩

/-! ## Timestamp formatting claims (C4, C8, C10) -/

/-- C8.  Timestamp fallback: whenever the parse-localize-convert chain
fails (any exception inside the `try`), the formatter returns the first 16
characters of the raw input unchanged — it never raises. -/
theorem c8_timestamp_fallback (pub : String) (h : pubTry pub = none) :
    format_published pub = pub.take 16 := by
  unfold format_published
  rw [h]

/-- C8 (witness).  The malformed input `"not-a-date"` takes the fallback
and comes back unchanged (it is shorter than 16 characters). -/
theorem c8_timestamp_fallback_witness :
    format_published "not-a-date" = "not-a-date" := by
  rw [c8_timestamp_fallback "not-a-date" (by decide)]
  decide

/-- C10.  Hardcoded zone label: on every input whose conversion succeeds
(a timestamp parsed without explicit zone information), the formatted
output ends in the fixed literal `" EDT"` taken from the format string —
whatever the date, including instants at which US Eastern is on standard
time. -/
theorem c10_hardcoded_edt (pub : String) (ts : PdTimestamp)
    (h1 : pd_to_datetime pub = some ts) (h2 : ts.tzOffset = none) :
    ∃ body : String, format_published pub = body ++ " EDT" := by
  have hloc : tz_localize_utc ts = some (utcMinutesOf ts) := by
    unfold tz_localize_utc
    rw [h2]
  have hTry : pubTry pub
      = some (strftimeEDT (tz_convert_eastern (utcMinutesOf ts))) := by
    unfold pubTry
    rw [h1]
    simp [hloc]
  unfold format_published
  rw [hTry]
  exact ⟨strftimeYMDHM (tz_convert_eastern (utcMinutesOf ts)), rfl⟩

/-- C10 (witness).  A January instant: 2025-01-15 12:00 UTC converts with
the standard-time offset (-5 hours, giving 07:00) and is still labelled
`EDT` by the hardcoded format string. -/
theorem c10_hardcoded_edt_witness :
    pd_to_datetime "2025-01-15 12:00:00"
      = some (⟨2025, 1, 15, 12, 0, 0, none⟩ : PdTimestamp) ∧
    (∃ body : String,
      format_published "2025-01-15 12:00:00" = body ++ " EDT") ∧
    format_published "2025-01-15 12:00:00" = "2025-01-15 07:00 EDT" :=
  ⟨by decide,
   c10_hardcoded_edt "2025-01-15 12:00:00" ⟨2025, 1, 15, 12, 0, 0, none⟩
     (by decide) rfl,
   by decide⟩

/-- C4 (code-bug evaluation).  The RSS-style input with explicit zone
information documented by the code's own comment, `"Tue, 02 Jul 2024
00:13:30 GMT"`, parses as a timezone-aware timestamp; `tz_localize('UTC')`
raises on an aware timestamp, so the formatter falls back to the first 16
raw characters `"Tue, 02 Jul 2024"` instead of the Eastern rendering
`"2024-07-01 20:13 EDT"` that converting the same instant would give. -/
theorem c4_gmt_input_falls_back :
    pd_to_datetime "Tue, 02 Jul 2024 00:13:30 GMT"
      = some (⟨2024, 7, 2, 0, 13, 30, some 0⟩ : PdTimestamp) ∧
    tz_localize_utc (⟨2024, 7, 2, 0, 13, 30, some 0⟩ : PdTimestamp) = none ∧
    format_published "Tue, 02 Jul 2024 00:13:30 GMT" = "Tue, 02 Jul 2024" ∧
    strftimeEDT (tz_convert_eastern
        (utcMinutesOf (⟨2024, 7, 2, 0, 13, 30, none⟩ : PdTimestamp)))
      = "2024-07-01 20:13 EDT" :=
  ⟨by decide, rfl, by decide, by decide⟩

/-! ## The spec's example scenario, as the eligibility witness (C1) -/

/-- The Tokyo-date home run of the spec's example scenario. -/
def tokyoHR : GameEvent :=
  { game_date := 20250319, events := "home_run", home_team := "LAD",
    away_team := "CHC", pitcher := some 1, batter := some 11 }

/-- The spec's example scenario: a Tokyo-date home run, a Tokyo-window
strikeout and a regular-season home run, all for an overseas-opener team. -/
def exTbl : List GameEvent :=
  [ tokyoHR,
    { game_date := 20250325, events := "strikeout", home_team := "LAD",
      away_team := "CHC", pitcher := some 2, batter := some 12 },
    { game_date := 20250328, events := "home_run", home_team := "LAD",
      away_team := "SD", pitcher := some 3, batter := some 13 } ]

/-- C1 (witness).  The eligibility theorem applied to the example scenario:
for a non-overseas team every filtered row is dated at or after the
regular-season start, and for the overseas team `LAD` the Tokyo-date home
run of 2025-03-19 appears in the filtered log. -/
theorem c1_eligibility_window_witness :
    (∀ row ∈ fetch_hr_log cexLookup exTbl 20250318 20251001 "NYY",
      REGULAR_START ≤ row.ev.game_date) ∧
    ∃ row ∈ fetch_hr_log cexLookup exTbl 20250318 20251001 "LAD",
      row.ev = tokyoHR :=
  ⟨(c1_eligibility_window cexLookup exTbl 20250318 20251001 "NYY").1 rfl,
   (c1_eligibility_window cexLookup exTbl 20250318 20251001 "LAD").2.2.1 rfl
     tokyoHR (by decide) (Or.inr rfl) (by decide) (by decide) rfl⟩

end MLBTracker
